import Mathlib

/-!
Verification of the Minesweeper core engine (`components.py`).

The shallow embedding below translates the `Board` class and its methods.
Python's mutable cell objects become a `List Cell` that is updated
functionally; coordinates stay `Int` (Python ints), while `cols`, `rows`
and the scalar counters are `Nat`.

Randomness: `Board.place_mines` shuffles the candidate pool in place with
`random.shuffle(pool)`.  Here the shuffle is passed in as a function
argument `shuffle`; theorems about placement hypothesise
`(shuffle pool).Perm pool`, which is exactly the guarantee
`random.shuffle` provides.

The iterative flood fill (`Board.reveal`'s while-loop over the `to_reveal`
stack) is modelled by `flood`, a structurally recursive function on a fuel
argument.  Each loop iteration either pops a skipped coordinate (stack
shrinks, cells unchanged) or reveals a previously unrevealed cell and
pushes at most 8 neighbours, so the quantity
`9 * (number of unrevealed cells) + stack length` strictly decreases;
`Board.reveal` supplies fuel strictly larger than this bound, so the fuel
never runs out (`flood_fuel_irrelevant` below makes this precise).
-/

/-- `CellState` from components.py: the mutable per-cell attributes. -/
structure CellState where
  is_mine : Bool
  is_revealed : Bool
  is_flagged : Bool
  adjacent : Nat
deriving DecidableEq, Repr

/-- `Cell` from components.py: a position plus its `CellState`. -/
structure Cell where
  col : Int
  row : Int
  state : CellState
deriving DecidableEq, Repr

/-- The freshly constructed `CellState()` (all defaults). -/
def CellState.init : CellState :=
  { is_mine := false, is_revealed := false, is_flagged := false, adjacent := 0 }

/-- `Board` from components.py: the flat cell list plus scalar state. -/
structure Board where
  cols : Nat
  rows : Nat
  num_mines : Nat
  cells : List Cell
  mines_placed : Bool
  revealed_count : Nat
  game_over : Bool
  win : Bool
deriving DecidableEq, Repr

/-- Read the state of the cell at flat index `i`; out-of-range indices
return the default state (the code never indexes out of range: every
subscript is guarded by an in-bounds check on the coordinates). -/
def stateAt (cells : List Cell) (i : Nat) : CellState :=
  (cells.getD i { col := 0, row := 0, state := CellState.init }).state

/-- Functional update of the `CellState` at flat index `i`, modelling a
Python in-place mutation of `self.cells[i].state`. -/
def modifyState (cells : List Cell) (i : Nat) (f : CellState → CellState) : List Cell :=
  match cells, i with
  | [], _ => []
  | x :: xs, 0 => { x with state := f x.state } :: xs
  | x :: xs, n + 1 => x :: modifyState xs n f

/-- `Board.index`: `row * self.cols + col`. -/
def Board.index (b : Board) (col row : Int) : Int :=
  row * (b.cols : Int) + col

/-- The flat index as a list subscript.  For in-bounds coordinates
`row * cols + col` is non-negative, so `toNat` is exact. -/
def toIdx (cols : Nat) (col row : Int) : Nat :=
  (row * (cols : Int) + col).toNat

/-- `Board.is_inbounds`: `0 <= col < self.cols and 0 <= row < self.rows`. -/
def inb (cols rows : Nat) (col row : Int) : Bool :=
  decide (0 ≤ col) && decide (col < (cols : Int)) &&
    (decide (0 ≤ row) && decide (row < (rows : Int)))

def Board.is_inbounds (b : Board) (col row : Int) : Bool :=
  inb b.cols b.rows col row

/-- The eight compass-direction offsets from `Board.neighbors`. -/
def deltas : List (Int × Int) :=
  [(-1, -1), (0, -1), (1, -1), (-1, 0), (1, 0), (-1, 1), (0, 1), (1, 1)]

/-- `Board.neighbors`: the in-bounds cells at the eight offsets, in the
order the Python loop appends them. -/
def neighborsOf (cols rows : Nat) (col row : Int) : List (Int × Int) :=
  (deltas.map fun d => (col + d.1, row + d.2)).filter fun p => inb cols rows p.1 p.2

def Board.neighbors (b : Board) (col row : Int) : List (Int × Int) :=
  neighborsOf b.cols b.rows col row

/-- `Board.__init__`: note that no parameter validation whatsoever is
performed; every call succeeds and stores the arguments as given. -/
def Board.init (cols rows mines : Nat) : Board :=
  { cols := cols
    rows := rows
    num_mines := mines
    cells := (List.range rows).flatMap fun r : Nat =>
      (List.range cols).map fun c : Nat =>
        { col := (c : Int), row := (r : Int), state := CellState.init }
    mines_placed := false
    revealed_count := 0
    game_over := false
    win := false }

/-- `all_positions` from `place_mines`:
`[(c, r) for r in range(self.rows) for c in range(self.cols)]`. -/
def all_positions (cols rows : Nat) : List (Int × Int) :=
  (List.range rows).flatMap fun r : Nat =>
    (List.range cols).map fun c : Nat => ((c : Int), (r : Int))

/-- `forbidden` from `place_mines`: the safe origin together with its
in-bounds neighbours (the Python set union never has duplicates since the
origin is not its own neighbour). -/
def forbiddenList (cols rows : Nat) (sc sr : Int) : List (Int × Int) :=
  (sc, sr) :: neighborsOf cols rows sc sr

/-- `pool` from `place_mines`: all positions minus the forbidden set. -/
def minePoolOf (cols rows : Nat) (sc sr : Int) : List (Int × Int) :=
  (all_positions cols rows).filter fun p => !(forbiddenList cols rows sc sr).contains p

def Board.minePool (b : Board) (sc sr : Int) : List (Int × Int) :=
  minePoolOf b.cols b.rows sc sr

/-- Mark `is_mine := true` at every position of `ps`
(the `for (c, r) in mine_positions` loop). -/
def mark_mines (cols : Nat) (cells : List Cell) : List (Int × Int) → List Cell
  | [] => cells
  | p :: ps =>
      mark_mines cols
        (modifyState cells (toIdx cols p.1 p.2) fun s => { s with is_mine := true }) ps

/-- One iteration of the adjacency loop in `place_mines`: skip mine cells,
otherwise store the number of neighbouring mines in `adjacent`. -/
def adj_step (cols rows : Nat) (cells : List Cell) (p : Int × Int) : List Cell :=
  if (stateAt cells (toIdx cols p.1 p.2)).is_mine then cells
  else
    modifyState cells (toIdx cols p.1 p.2) fun s =>
      { s with adjacent :=
          (neighborsOf cols rows p.1 p.2).countP fun q =>
            (stateAt cells (toIdx cols q.1 q.2)).is_mine }

/-- The full adjacency pass of `place_mines` (`for r ...: for c ...:`),
which visits the grid in the same row-major order as `all_positions`. -/
def adjacency_pass (cols rows : Nat) (cells : List Cell) : List Cell :=
  (all_positions cols rows).foldl (adj_step cols rows) cells

/-- `Board.place_mines`.  `shuffle` stands for `random.shuffle`: the code
shuffles `pool` in place and takes the first `num_mines` entries; here the
shuffled pool is `shuffle pool`, and theorems assume it is a permutation
of `pool`. -/
def Board.place_mines (b : Board) (sc sr : Int)
    (shuffle : List (Int × Int) → List (Int × Int)) : Board :=
  let pool := minePoolOf b.cols b.rows sc sr
  let shuffled := shuffle pool
  let mine_positions := shuffled.take b.num_mines
  let cells1 := mark_mines b.cols b.cells mine_positions
  let cells2 := adjacency_pass b.cols b.rows cells1
  { b with cells := cells2, mines_placed := true }

/-- `Board._reveal_all_mines`: reveal every mine cell. -/
def Board.reveal_all_mines (b : Board) : Board :=
  { b with
    cells := b.cells.map fun cl =>
      if cl.state.is_mine then { cl with state := { cl.state with is_revealed := true } } else cl }

/-- `Board._check_win`: set `win` and defensively reveal the remaining
non-mine cells when all of them are accounted for.  The comparison is
over `Int`, as in Python (`total_cells - self.num_mines` may be negative
for over-full configurations). -/
def Board.check_win (b : Board) : Board :=
  if ((b.revealed_count : Int) == ((b.cols : Int) * (b.rows : Int) - (b.num_mines : Int)))
      && !b.game_over then
    { b with
      win := true
      cells := b.cells.map fun cl =>
        if !cl.state.is_revealed && !cl.state.is_mine then
          { cl with state := { cl.state with is_revealed := true } }
        else cl }
  else b

/-- The iterative flood-fill loop of `Board.reveal` (`while to_reveal:`).
The Lean stack lists are ordered with the most recently pushed coordinate
first, matching Python's `append`/`pop` pair.  `fuel` bounds the number of
iterations; the loop needs at most `9 * (unrevealed cells) + stack length`
of it (see `flood_fuel_irrelevant`). -/
def flood (cols rows : Nat) : Nat → List Cell → Nat → List (Int × Int) → List Cell × Nat
  | 0, cells, count, _ => (cells, count)
  | _ + 1, cells, count, [] => (cells, count)
  | fuel + 1, cells, count, (c, r) :: rest =>
    let i := toIdx cols c r
    -- the subscript bound always holds: every stacked coordinate is in
    -- bounds, mirroring Python's unchecked `self.cells[self.index(c,r)]`
    if i < cells.length then
      let cur := stateAt cells i
      if cur.is_revealed || cur.is_flagged then
        flood cols rows fuel cells count rest
      else
        let cells' := modifyState cells i fun s => { s with is_revealed := true }
        if cur.adjacent == 0 then
          let pushed := (neighborsOf cols rows c r).filter fun q =>
            !(stateAt cells' (toIdx cols q.1 q.2)).is_revealed &&
              !(stateAt cells' (toIdx cols q.1 q.2)).is_mine
          flood cols rows fuel cells' (count + 1) (pushed.reverse ++ rest)
        else
          flood cols rows fuel cells' (count + 1) rest
    else
      flood cols rows fuel cells count rest

/-- Fuel sufficient for any run of the flood loop seeded with one cell. -/
def floodFuel (cells : List Cell) : Nat :=
  9 * cells.length + 2

/-- `Board.reveal`. -/
def Board.reveal (b : Board) (col row : Int)
    (shuffle : List (Int × Int) → List (Int × Int)) : Board :=
  if b.is_inbounds col row then
    let b1 := if b.mines_placed then b else b.place_mines col row shuffle
    let cell := stateAt b1.cells (toIdx b1.cols col row)
    if cell.is_flagged || cell.is_revealed then b1
    else if cell.is_mine then
      Board.reveal_all_mines
        { b1 with
          cells := modifyState b1.cells (toIdx b1.cols col row) fun s =>
            { s with is_revealed := true }
          game_over := true }
    else
      let fr := flood b1.cols b1.rows (floodFuel b1.cells) b1.cells b1.revealed_count [(col, row)]
      Board.check_win { b1 with cells := fr.1, revealed_count := fr.2 }
  else b

/-- `Board.toggle_flag`. -/
def Board.toggle_flag (b : Board) (col row : Int) : Board :=
  if b.is_inbounds col row then
    if (stateAt b.cells (toIdx b.cols col row)).is_revealed then b
    else
      { b with
        cells := modifyState b.cells (toIdx b.cols col row) fun s =>
          { s with is_flagged := !s.is_flagged } }
  else b

/-- Modelled from the spec: the body of `Board.flagged_count` is an
unimplemented `TODO` stub in components.py (the method is declared and
called from run.py but has no statements).  The spec states:
"`flagged_count() -> integer`: count of cells with `is_flagged == true`,
recomputed on demand (not incrementally tracked)". -/
def Board.flagged_count (b : Board) : Nat :=
  b.cells.countP fun cl => cl.state.is_flagged

/-- The states reachable from a fresh `Board(cols, rows, mines)` by any
sequence of `reveal` and `toggle_flag` calls.  Each `reveal` may carry any
shuffle whose output on the candidate pool of that click is a permutation
of it — the guarantee `random.shuffle` provides. -/
inductive Reachable (cols rows mines : Nat) : Board → Prop where
  | init : Reachable cols rows mines (Board.init cols rows mines)
  | step_reveal {b : Board} (col row : Int)
      (shuffle : List (Int × Int) → List (Int × Int)) :
      Reachable cols rows mines b →
      (shuffle (b.minePool col row)).Perm (b.minePool col row) →
      Reachable cols rows mines (b.reveal col row shuffle)
  | step_flag {b : Board} (col row : Int) :
      Reachable cols rows mines b →
      Reachable cols rows mines (b.toggle_flag col row)

/-- The spec's standing assumption on the mine count ("must leave room for
the first-click safe zone of up to 9 cells").  It guarantees that the
candidate pool of `place_mines` is never smaller than `num_mines`, since
the forbidden set has at most 9 cells. -/
def MinesFit (cols rows mines : Nat) : Prop :=
  mines + 9 ≤ cols * rows ∨ mines = 0

/-- State invariant maintained by every reachable board (for a
configuration satisfying `MinesFit`). -/
def BoardInv (cols rows mines : Nat) (b : Board) : Prop :=
  b.cols = cols ∧ b.rows = rows ∧ b.num_mines = mines ∧
  b.cells.length = cols * rows ∧
  (b.mines_placed = false →
    b.revealed_count = 0 ∧
      ∀ i : Nat, (stateAt b.cells i).is_mine = false ∧ (stateAt b.cells i).is_revealed = false) ∧
  (b.mines_placed = true → (b.cells.countP fun cl => cl.state.is_mine) = mines) ∧
  b.revealed_count = (b.cells.countP fun cl => cl.state.is_revealed && !cl.state.is_mine)

/-- The set of coordinates the flood-fill loop can reach from the given
seed stack over the fixed pre-loop cell data `cells0`: the stack entries
themselves, plus — repeatedly — every non-mine neighbour of a reached cell
that is unflagged, was not already revealed before the loop, and has
`adjacent = 0`. -/
inductive FloodReach (cols rows : Nat) (cells0 : List Cell) (stack : List (Int × Int)) :
    Int × Int → Prop where
  | base {p : Int × Int} : p ∈ stack → FloodReach cols rows cells0 stack p
  | step {p q : Int × Int} :
      FloodReach cols rows cells0 stack p →
      (stateAt cells0 (toIdx cols p.1 p.2)).is_flagged = false →
      (stateAt cells0 (toIdx cols p.1 p.2)).is_revealed = false →
      (stateAt cells0 (toIdx cols p.1 p.2)).adjacent = 0 →
      q ∈ neighborsOf cols rows p.1 p.2 →
      (stateAt cells0 (toIdx cols q.1 q.2)).is_mine = false →
      FloodReach cols rows cells0 stack q

/-- The region a `reveal` click actually opens: everything `FloodReach`-
reachable from the clicked cell over the pre-call board. -/
def RevealRegion (b : Board) (col row : Int) : Int × Int → Prop :=
  FloodReach b.cols b.rows b.cells [(col, row)]

/-- Modelled from the spec's words for comparison (claim C2): the
"connected zero-adjacency region containing (col, row)" — connectivity
through zero-adjacency cells only, with no exception for flagged or
already-revealed cells. -/
inductive SpecZeroRegion (cols rows : Nat) (cells : List Cell) (origin : Int × Int) :
    Int × Int → Prop where
  | refl : SpecZeroRegion cols rows cells origin origin
  | step {p q : Int × Int} :
      SpecZeroRegion cols rows cells origin p →
      (stateAt cells (toIdx cols p.1 p.2)).adjacent = 0 →
      q ∈ neighborsOf cols rows p.1 p.2 →
      (stateAt cells (toIdx cols q.1 q.2)).is_mine = false →
      (stateAt cells (toIdx cols q.1 q.2)).adjacent = 0 →
      SpecZeroRegion cols rows cells origin q

/-- Modelled from the spec's words for comparison (claim C5): the
construction-parameter validity condition under which the spec says
`Board(cols, rows, mine_count)` must fail with a configuration error
exactly when it is violated: `0 <= mine_count <= cols*rows - 9`,
`cols > 0`, `rows > 0`. -/
def SpecConfigOk (cols rows mines : Nat) : Prop :=
  0 < cols ∧ 0 < rows ∧ mines + 9 ≤ cols * rows

/-! Concrete boards used by witnesses and counterexamples. -/

/-- A 3×1 board, no mines, with the two leftmost cells revealed. -/
def wBoardC2 : Board :=
  { cols := 3, rows := 1, num_mines := 0
    cells :=
      [ { col := 0, row := 0, state := { is_mine := false, is_revealed := true, is_flagged := false, adjacent := 0 } }
      , { col := 1, row := 0, state := { is_mine := false, is_revealed := true, is_flagged := false, adjacent := 0 } }
      , { col := 2, row := 0, state := { is_mine := false, is_revealed := false, is_flagged := false, adjacent := 0 } } ]
    mines_placed := true, revealed_count := 2, game_over := false, win := false }

/-- A 2×1 board whose left cell is a hidden mine. -/
def wBoardC7 : Board :=
  { cols := 2, rows := 1, num_mines := 1
    cells :=
      [ { col := 0, row := 0, state := { is_mine := true, is_revealed := false, is_flagged := false, adjacent := 0 } }
      , { col := 1, row := 0, state := { is_mine := false, is_revealed := false, is_flagged := false, adjacent := 1 } } ]
    mines_placed := true, revealed_count := 0, game_over := false, win := false }

/-- A 1×1 board with no mines whose single cell has been revealed but the
win check not yet applied. -/
def wBoardC8 : Board :=
  { cols := 1, rows := 1, num_mines := 0
    cells :=
      [ { col := 0, row := 0, state := { is_mine := false, is_revealed := true, is_flagged := false, adjacent := 0 } } ]
    mines_placed := true, revealed_count := 1, game_over := false, win := false }

/-- A finished (lost) 1×1 board. -/
def wBoardC4 : Board :=
  { cols := 1, rows := 1, num_mines := 0
    cells :=
      [ { col := 0, row := 0, state := { is_mine := false, is_revealed := false, is_flagged := false, adjacent := 0 } } ]
    mines_placed := true, revealed_count := 0, game_over := true, win := false }

/-- A finished (won) 1×1 board. -/
def wBoardC4w : Board :=
  { cols := 1, rows := 1, num_mines := 0
    cells :=
      [ { col := 0, row := 0, state := { is_mine := false, is_revealed := true, is_flagged := false, adjacent := 0 } } ]
    mines_placed := true, revealed_count := 1, game_over := false, win := true }

/-- A 2×1 board, no mines, mines placed, nothing revealed yet: the next
reveal opens both cells and wins. -/
def wBoardC8b : Board :=
  { cols := 2, rows := 1, num_mines := 0
    cells :=
      [ { col := 0, row := 0, state := CellState.init }
      , { col := 1, row := 0, state := CellState.init } ]
    mines_placed := true, revealed_count := 0, game_over := false, win := false }

/-- 4×1 board, one mine: the first click at (0,0) wins the game (the mine
is forced to (3,0) by the supplied shuffle). -/
def ceBoardC4a : Board :=
  (Board.init 4 1 1).reveal 0 0 fun _ => [(3, 0), (2, 0)]

/-- ... after which revealing the mine at (3,0) also sets `game_over`. -/
def ceBoardC4b : Board :=
  ceBoardC4a.reveal 3 0 id

/-- 5×1 board, one mine at (3,0): the first click at (0,0) reveals three
cells. -/
def ceBoardC3a : Board :=
  (Board.init 5 1 1).reveal 0 0 fun _ => [(3, 0), (2, 0), (4, 0)]

/-- ... and then revealing the mine leaves `revealed_count = 3` although
four cells are revealed. -/
def ceBoardC3b : Board :=
  ceBoardC3a.reveal 3 0 id

/-- 8×1 board, one mine at (3,0), first click at (0,0). -/
def ceBoardC2a : Board :=
  (Board.init 8 1 1).reveal 0 0 fun _ => [(3, 0), (2, 0), (4, 0), (5, 0), (6, 0), (7, 0)]

/-- ... then the player flags the zero-adjacency cell (6,0). -/
def ceBoardC2b : Board :=
  ceBoardC2a.toggle_flag 6 0

/-- ... and clicks the zero-adjacency cell (5,0): the flag at (6,0) stops
the flood, so the zero-region cell (7,0) stays hidden. -/
def ceBoardC2c : Board :=
  ceBoardC2b.reveal 5 0 id

/-! ## Basic lemmas about the cell-array primitives -/

theorem length_modifyState (cells : List Cell) (i : Nat) (f : CellState → CellState) :
    (modifyState cells i f).length = cells.length := by
  induction cells generalizing i with
  | nil => rfl
  | cons x xs ih =>
    cases i with
    | zero => rfl
    | succ n => simpa [modifyState] using ih n

theorem stateAt_oob (cells : List Cell) (i : Nat) (h : cells.length ≤ i) :
    stateAt cells i = CellState.init := by
  unfold stateAt
  rw [List.getD_eq_default _ _ h]

theorem modifyState_oob (cells : List Cell) (i : Nat) (f : CellState → CellState)
    (h : cells.length ≤ i) : modifyState cells i f = cells := by
  induction cells generalizing i with
  | nil => rfl
  | cons x xs ih =>
    cases i with
    | zero => simp at h
    | succ n =>
      simp only [List.length_cons, Nat.succ_le_succ_iff] at h
      simp [modifyState, ih n h]

theorem stateAt_modifyState_self (cells : List Cell) (i : Nat) (f : CellState → CellState)
    (h : i < cells.length) :
    stateAt (modifyState cells i f) i = f (stateAt cells i) := by
  induction cells generalizing i with
  | nil => simp at h
  | cons x xs ih =>
    cases i with
    | zero => rfl
    | succ n =>
      simp only [List.length_cons, Nat.succ_lt_succ_iff] at h
      simpa [modifyState, stateAt] using ih n h

theorem stateAt_modifyState_ne (cells : List Cell) (i j : Nat) (f : CellState → CellState)
    (h : j ≠ i) :
    stateAt (modifyState cells i f) j = stateAt cells j := by
  induction cells generalizing i j with
  | nil => rfl
  | cons x xs ih =>
    cases i with
    | zero =>
      cases j with
      | zero => exact absurd rfl h
      | succ m => rfl
    | succ n =>
      cases j with
      | zero => rfl
      | succ m =>
        have : m ≠ n := fun hc => h (by simp [hc])
        simpa [modifyState, stateAt] using ih n m this

theorem countP_modifyState (p : CellState → Bool) (cells : List Cell) (i : Nat)
    (f : CellState → CellState) (h : i < cells.length) :
    ((modifyState cells i f).countP fun cl => p cl.state)
        + (if p (stateAt cells i) then 1 else 0)
      = (cells.countP fun cl => p cl.state)
        + (if p (f (stateAt cells i)) then 1 else 0) := by
  induction cells generalizing i with
  | nil => simp at h
  | cons x xs ih =>
    cases i with
    | zero =>
      simp only [modifyState, List.countP_cons, stateAt]
      simp only [List.getD_cons_zero]
      omega
    | succ n =>
      simp only [List.length_cons, Nat.succ_lt_succ_iff] at h
      have := ih n h
      simp only [modifyState, List.countP_cons, stateAt, List.getD_cons_succ] at this ⊢
      omega

theorem countP_modifyState_of_preserve (p : CellState → Bool) (cells : List Cell) (i : Nat)
    (f : CellState → CellState) (hp : p (f (stateAt cells i)) = p (stateAt cells i)) :
    ((modifyState cells i f).countP fun cl => p cl.state)
      = cells.countP fun cl => p cl.state := by
  rcases Nat.lt_or_ge i cells.length with h | h
  · have := countP_modifyState p cells i f h
    rw [hp] at this
    omega
  · rw [modifyState_oob cells i f h]

/-! ## Geometry: bounds, flat indices, positions -/

theorem inb_iff {cols rows : Nat} {c r : Int} :
    inb cols rows c r = true ↔ 0 ≤ c ∧ c < (cols : Int) ∧ 0 ≤ r ∧ r < (rows : Int) := by
  simp [inb, and_assoc]

theorem toIdx_lt {cols rows : Nat} {c r : Int} (h : inb cols rows c r = true) :
    toIdx cols c r < cols * rows := by
  rw [inb_iff] at h
  obtain ⟨h1, h2, h3, h4⟩ := h
  have hstep : r * (cols : Int) + c < (cols : Int) * (rows : Int) := by
    have hrc : r * (cols : Int) + c < (r + 1) * (cols : Int) := by
      rw [add_mul, one_mul]
      omega
    have hr1 : (r + 1) * (cols : Int) ≤ (rows : Int) * (cols : Int) := by
      apply mul_le_mul_of_nonneg_right _ (by positivity)
      omega
    calc r * (cols : Int) + c < (r + 1) * (cols : Int) := hrc
      _ ≤ (rows : Int) * (cols : Int) := hr1
      _ = (cols : Int) * (rows : Int) := mul_comm _ _
  have hcast : ((cols * rows : Nat) : Int) = (cols : Int) * (rows : Int) := by push_cast; ring
  have hnonneg : 0 ≤ r * (cols : Int) + c := by
    have : 0 ≤ r * (cols : Int) := mul_nonneg h3 (by positivity)
    omega
  unfold toIdx
  omega

theorem rowcol_unique {cols a a' b b' : Nat} (ha : a < cols) (ha' : a' < cols)
    (h : b * cols + a = b' * cols + a') : a = a' ∧ b = b' := by
  rcases Nat.lt_trichotomy b b' with hlt | heq | hgt
  · exfalso
    have : (b + 1) * cols ≤ b' * cols := Nat.mul_le_mul_right cols hlt
    rw [add_mul, one_mul] at this
    omega
  · subst heq
    omega
  · exfalso
    have : (b' + 1) * cols ≤ b * cols := Nat.mul_le_mul_right cols hgt
    rw [add_mul, one_mul] at this
    omega

theorem inb_exists {cols rows : Nat} {c r : Int} (h : inb cols rows c r = true) :
    ∃ a b : Nat, a < cols ∧ b < rows ∧ c = (a : Int) ∧ r = (b : Int) := by
  rw [inb_iff] at h
  exact ⟨c.toNat, r.toNat, by omega, by omega, by omega, by omega⟩

theorem toIdx_nat (cols : Nat) (a b : Nat) : toIdx cols (a : Int) (b : Int) = b * cols + a := by
  unfold toIdx
  omega

theorem toIdx_inj {cols rows : Nat} {p q : Int × Int}
    (hp : inb cols rows p.1 p.2 = true) (hq : inb cols rows q.1 q.2 = true)
    (h : toIdx cols p.1 p.2 = toIdx cols q.1 q.2) : p = q := by
  obtain ⟨a, b, ha, hb, hc, hr⟩ := inb_exists hp
  obtain ⟨a', b', ha', hb', hc', hr'⟩ := inb_exists hq
  rw [hc, hr, hc', hr', toIdx_nat, toIdx_nat] at h
  obtain ⟨h1, h2⟩ := rowcol_unique ha ha' h
  exact Prod.ext (by rw [hc, hc', h1]) (by rw [hr, hr', h2])

theorem mem_all_positions {cols rows : Nat} {p : Int × Int} :
    p ∈ all_positions cols rows ↔ inb cols rows p.1 p.2 = true := by
  constructor
  · intro h
    unfold all_positions at h
    rw [List.mem_flatMap] at h
    obtain ⟨b, hb, hmem⟩ := h
    rw [List.mem_map] at hmem
    obtain ⟨a, ha, rfl⟩ := hmem
    rw [List.mem_range] at ha hb
    rw [inb_iff]
    refine ⟨by omega, ?_, by omega, ?_⟩
    · show (a : Int) < (cols : Int)
      exact_mod_cast ha
    · show (b : Int) < (rows : Int)
      exact_mod_cast hb
  · intro h
    obtain ⟨a, b, ha, hb, hc, hr⟩ := inb_exists h
    unfold all_positions
    rw [List.mem_flatMap]
    refine ⟨b, by rw [List.mem_range]; exact hb, ?_⟩
    rw [List.mem_map]
    refine ⟨a, by rw [List.mem_range]; exact ha, ?_⟩
    have hp : p = (p.1, p.2) := rfl
    rw [hp, hc, hr]

theorem nodup_all_positions (cols rows : Nat) : (all_positions cols rows).Nodup := by
  unfold all_positions
  rw [List.nodup_flatMap]
  constructor
  · intro r _
    refine List.Nodup.map ?_ (List.nodup_range cols)
    intro x y hxy
    have h1 := congrArg Prod.fst hxy
    simp only at h1
    exact_mod_cast h1
  · refine (List.pairwise_lt_range rows).imp ?_
    intro r1 r2 hlt
    simp only [Function.onFun]
    intro p hp1 hp2
    rw [List.mem_map] at hp1 hp2
    obtain ⟨a1, _, rfl⟩ := hp1
    obtain ⟨a2, _, heq⟩ := hp2
    have h2 := congrArg Prod.snd heq
    simp only at h2
    have h3 : (r2 : Int) = (r1 : Int) := h2
    omega

theorem length_all_positions (cols rows : Nat) :
    (all_positions cols rows).length = cols * rows := by
  unfold all_positions
  induction rows with
  | zero => simp
  | succ n ih =>
    rw [List.range_succ, List.flatMap_append, List.length_append, ih]
    simp only [List.flatMap_cons, List.flatMap_nil, List.append_nil, List.length_map,
      List.length_range]
    rw [Nat.mul_succ]

theorem mem_neighborsOf {cols rows : Nat} {c r : Int} {q : Int × Int} :
    q ∈ neighborsOf cols rows c r ↔
      (∃ d ∈ deltas, q = (c + d.1, r + d.2)) ∧ inb cols rows q.1 q.2 = true := by
  unfold neighborsOf
  simp only [List.mem_filter, List.mem_map]
  constructor
  · rintro ⟨⟨d, hd, rfl⟩, h2⟩
    exact ⟨⟨d, hd, rfl⟩, h2⟩
  · rintro ⟨⟨d, hd, rfl⟩, h2⟩
    exact ⟨⟨d, hd, rfl⟩, h2⟩

theorem neighborsOf_inb {cols rows : Nat} {c r : Int} {q : Int × Int}
    (h : q ∈ neighborsOf cols rows c r) : inb cols rows q.1 q.2 = true :=
  (mem_neighborsOf.mp h).2

theorem length_neighborsOf_le (cols rows : Nat) (c r : Int) :
    (neighborsOf cols rows c r).length ≤ 8 := by
  unfold neighborsOf
  calc (List.filter _ (deltas.map fun d => (c + d.1, r + d.2))).length
      ≤ (deltas.map fun d => (c + d.1, r + d.2)).length := List.length_filter_le _ _
    _ = 8 := by rw [List.length_map]; rfl

/-! ## The candidate pool of `place_mines` -/

theorem nodup_subset_length {α : Type} [DecidableEq α] {l l' : List α}
    (h : l.Nodup) (hs : l ⊆ l') : l.length ≤ l'.length :=
  calc l.length = l.toFinset.card := (List.toFinset_card_of_nodup h).symm
    _ ≤ l'.toFinset.card := Finset.card_le_card (by
        intro x hx
        simp only [List.mem_toFinset] at hx ⊢
        exact hs hx)
    _ ≤ l'.length := List.toFinset_card_le l'

theorem mem_minePool {cols rows : Nat} {sc sr : Int} {p : Int × Int} :
    p ∈ minePoolOf cols rows sc sr ↔
      p ∈ all_positions cols rows ∧ p ∉ forbiddenList cols rows sc sr := by
  unfold minePoolOf
  rw [List.mem_filter]
  simp [List.elem_iff]

theorem nodup_minePool (cols rows : Nat) (sc sr : Int) :
    (minePoolOf cols rows sc sr).Nodup :=
  List.Nodup.filter _ (nodup_all_positions cols rows)

theorem minePool_inb {cols rows : Nat} {sc sr : Int} {p : Int × Int}
    (h : p ∈ minePoolOf cols rows sc sr) : inb cols rows p.1 p.2 = true :=
  mem_all_positions.mp (mem_minePool.mp h).1

theorem length_forbiddenList_le (cols rows : Nat) (sc sr : Int) :
    (forbiddenList cols rows sc sr).length ≤ 9 := by
  unfold forbiddenList
  have := length_neighborsOf_le cols rows sc sr
  simp only [List.length_cons]
  omega

theorem minePool_length_ge (cols rows : Nat) (sc sr : Int) :
    cols * rows ≤ (minePoolOf cols rows sc sr).length + 9 := by
  have hsplit0 := List.length_eq_countP_add_countP
    (fun p => !(forbiddenList cols rows sc sr).contains p) (all_positions cols rows)
  have hsplit : (all_positions cols rows).length
      = ((all_positions cols rows).countP fun p => !(forbiddenList cols rows sc sr).contains p)
        + ((all_positions cols rows).countP
            fun p => !!(forbiddenList cols rows sc sr).contains p) := by
    rw [hsplit0]
    congr 1
    apply List.countP_congr
    intro x _
    simp
  have hpool : (minePoolOf cols rows sc sr).length
      = (all_positions cols rows).countP
          fun p => !(forbiddenList cols rows sc sr).contains p := by
    unfold minePoolOf
    rw [List.countP_eq_length_filter]
  have hremoved : ((all_positions cols rows).countP
      fun p => !!(forbiddenList cols rows sc sr).contains p) ≤ 9 := by
    rw [List.countP_eq_length_filter]
    have hnd : ((all_positions cols rows).filter
        fun p => !!(forbiddenList cols rows sc sr).contains p).Nodup :=
      List.Nodup.filter _ (nodup_all_positions cols rows)
    have hsub : ((all_positions cols rows).filter
        fun p => !!(forbiddenList cols rows sc sr).contains p) ⊆ forbiddenList cols rows sc sr := by
      intro x hx
      rw [List.mem_filter] at hx
      have := hx.2
      simp only [Bool.not_not] at this
      exact List.elem_iff.mp this
    calc _ ≤ (forbiddenList cols rows sc sr).length := nodup_subset_length hnd hsub
      _ ≤ 9 := length_forbiddenList_le cols rows sc sr
  rw [length_all_positions] at hsplit
  omega

/-! ## Marking the chosen mine positions -/

theorem length_mark_mines (cols : Nat) (cells : List Cell) (ps : List (Int × Int)) :
    (mark_mines cols cells ps).length = cells.length := by
  induction ps generalizing cells with
  | nil => rfl
  | cons p ps ih =>
    unfold mark_mines
    rw [ih, length_modifyState]

theorem field_modifyState {α : Type} (φ : CellState → α) (f : CellState → CellState)
    (hf : ∀ s, φ (f s) = φ s) (cells : List Cell) (j i : Nat) :
    φ (stateAt (modifyState cells j f) i) = φ (stateAt cells i) := by
  rcases Nat.lt_or_ge j cells.length with hj | hj
  · rcases eq_or_ne i j with rfl | hne
    · rw [stateAt_modifyState_self cells i f hj, hf]
    · rw [stateAt_modifyState_ne cells j i f hne]
  · rw [modifyState_oob cells j f hj]

theorem field_mark_mines {α : Type} (φ : CellState → α)
    (hφ : ∀ s, φ { s with is_mine := true } = φ s)
    (cols : Nat) (cells : List Cell) (ps : List (Int × Int)) (i : Nat) :
    φ (stateAt (mark_mines cols cells ps) i) = φ (stateAt cells i) := by
  induction ps generalizing cells with
  | nil => rfl
  | cons p ps ih =>
    unfold mark_mines
    rw [ih, field_modifyState φ _ hφ]

theorem stateAt_mark_mines (cols : Nat) (cells : List Cell) (ps : List (Int × Int))
    (hb : ∀ p ∈ ps, toIdx cols p.1 p.2 < cells.length) (i : Nat) :
    stateAt (mark_mines cols cells ps) i =
      if ps.any (fun p => toIdx cols p.1 p.2 == i) then
        { stateAt cells i with is_mine := true }
      else stateAt cells i := by
  induction ps generalizing cells with
  | nil => simp [mark_mines]
  | cons p ps ih =>
    have hblen : ∀ q ∈ ps,
        toIdx cols q.1 q.2 < (modifyState cells (toIdx cols p.1 p.2)
          fun s => { s with is_mine := true }).length := by
      intro q hq
      rw [length_modifyState]
      exact hb q (List.mem_cons_of_mem p hq)
    unfold mark_mines
    rw [ih _ hblen, List.any_cons]
    rcases eq_or_ne (toIdx cols p.1 p.2) i with heq | hne
    · rw [heq, stateAt_modifyState_self cells i _ (heq ▸ hb p (List.mem_cons_self p ps))]
      by_cases hany : ps.any (fun q => toIdx cols q.1 q.2 == i) = true
      · simp [hany]
      · simp [Bool.of_not_eq_true hany]
    · rw [stateAt_modifyState_ne cells _ i _ (Ne.symm hne)]
      have : (toIdx cols p.1 p.2 == i) = false := by
        rw [beq_eq_false_iff_ne]
        exact hne
      rw [this]
      rw [Bool.false_or]

theorem countP_mine_mark_mines (cols : Nat) (cells : List Cell) (ps : List (Int × Int))
    (hb : ∀ p ∈ ps, toIdx cols p.1 p.2 < cells.length)
    (hnodup : (ps.map fun p => toIdx cols p.1 p.2).Nodup)
    (hfresh : ∀ p ∈ ps, (stateAt cells (toIdx cols p.1 p.2)).is_mine = false) :
    ((mark_mines cols cells ps).countP fun cl => cl.state.is_mine)
      = (cells.countP fun cl => cl.state.is_mine) + ps.length := by
  induction ps generalizing cells with
  | nil => rfl
  | cons p ps ih =>
    have hplen : toIdx cols p.1 p.2 < cells.length := hb p (List.mem_cons_self p ps)
    have hstep := countP_modifyState (fun s => s.is_mine) cells (toIdx cols p.1 p.2)
      (fun s => { s with is_mine := true }) hplen
    simp only [hfresh p (List.mem_cons_self p ps), Bool.false_eq_true, if_false, if_true] at hstep
    rw [List.map_cons, List.nodup_cons] at hnodup
    unfold mark_mines
    rw [ih _ ?_ hnodup.2 ?_]
    · simp only [List.length_cons]
      omega
    · intro q hq
      rw [length_modifyState]
      exact hb q (List.mem_cons_of_mem p hq)
    · intro q hq
      have hne : toIdx cols q.1 q.2 ≠ toIdx cols p.1 p.2 := by
        intro hcon
        exact hnodup.1 (hcon ▸ List.mem_map_of_mem _ hq)
      rw [stateAt_modifyState_ne cells _ _ _ hne]
      exact hfresh q (List.mem_cons_of_mem p hq)

/-! ## The adjacency pass of `place_mines` -/

theorem adj_override (s : CellState) (n m : Nat) :
    ({ { s with adjacent := n } with adjacent := m } : CellState) = { s with adjacent := m } := rfl

theorem mine_override (s : CellState) :
    ({ { s with is_mine := true } with is_mine := true } : CellState)
      = { s with is_mine := true } := rfl

theorem length_adj_foldl (cols rows : Nat) (L : List (Int × Int)) (cells : List Cell) :
    (L.foldl (adj_step cols rows) cells).length = cells.length := by
  induction L generalizing cells with
  | nil => rfl
  | cons p L ih =>
    rw [List.foldl_cons, ih]
    unfold adj_step
    split
    · rfl
    · rw [length_modifyState]

theorem field_adj_step {α : Type} (φ : CellState → α)
    (hφ : ∀ s n, φ { s with adjacent := n } = φ s)
    (cols rows : Nat) (cells : List Cell) (p : Int × Int) (i : Nat) :
    φ (stateAt (adj_step cols rows cells p) i) = φ (stateAt cells i) := by
  unfold adj_step
  split
  · rfl
  · exact field_modifyState φ _ (fun s => hφ s _) cells _ i

theorem field_adj_foldl {α : Type} (φ : CellState → α)
    (hφ : ∀ s n, φ { s with adjacent := n } = φ s)
    (cols rows : Nat) (L : List (Int × Int)) (cells : List Cell) (i : Nat) :
    φ (stateAt (L.foldl (adj_step cols rows) cells) i) = φ (stateAt cells i) := by
  induction L generalizing cells with
  | nil => rfl
  | cons p L ih =>
    rw [List.foldl_cons, ih, field_adj_step φ hφ]

theorem stateAt_adj_step (cols rows : Nat) (cells : List Cell) (p : Int × Int)
    (hp : toIdx cols p.1 p.2 < cells.length) (i : Nat) :
    stateAt (adj_step cols rows cells p) i =
      if i = toIdx cols p.1 p.2 ∧ (stateAt cells (toIdx cols p.1 p.2)).is_mine = false then
        { stateAt cells i with adjacent :=
            (neighborsOf cols rows p.1 p.2).countP fun n =>
              (stateAt cells (toIdx cols n.1 n.2)).is_mine }
      else stateAt cells i := by
  unfold adj_step
  by_cases hmine : (stateAt cells (toIdx cols p.1 p.2)).is_mine = true
  · rw [if_pos hmine]
    have hcond : ¬(i = toIdx cols p.1 p.2
        ∧ (stateAt cells (toIdx cols p.1 p.2)).is_mine = false) := by
      rintro ⟨-, h2⟩
      rw [hmine] at h2
      exact absurd h2 (by decide)
    rw [if_neg hcond]
  · rw [if_neg hmine]
    have hmf := Bool.of_not_eq_true hmine
    by_cases hi : i = toIdx cols p.1 p.2
    · subst hi
      rw [stateAt_modifyState_self cells _ _ hp, if_pos ⟨rfl, hmf⟩]
    · rw [stateAt_modifyState_ne cells _ i _ hi, if_neg (fun h => hi h.1)]

theorem stateAt_adj_foldl (cols rows : Nat) (L : List (Int × Int)) (cells : List Cell)
    (hL : ∀ p ∈ L, inb cols rows p.1 p.2 = true)
    (hlen : cells.length = cols * rows) :
    ∀ q : Int × Int, inb cols rows q.1 q.2 = true →
      stateAt (L.foldl (adj_step cols rows) cells) (toIdx cols q.1 q.2) =
        if L.contains q && !(stateAt cells (toIdx cols q.1 q.2)).is_mine then
          { stateAt cells (toIdx cols q.1 q.2) with adjacent :=
              (neighborsOf cols rows q.1 q.2).countP fun n =>
                (stateAt cells (toIdx cols n.1 n.2)).is_mine }
        else stateAt cells (toIdx cols q.1 q.2) := by
  induction L generalizing cells with
  | nil =>
    intro q hq
    simp [List.foldl_nil]
  | cons p L ih =>
    intro q hq
    have hpin : inb cols rows p.1 p.2 = true := hL p (List.mem_cons_self p L)
    have hpidx : toIdx cols p.1 p.2 < cells.length := by
      rw [hlen]; exact toIdx_lt hpin
    have hmine_pres : ∀ j, (stateAt (adj_step cols rows cells p) j).is_mine
        = (stateAt cells j).is_mine :=
      fun j => field_adj_step (fun s => s.is_mine) (fun _ _ => rfl) cols rows cells p j
    have hcnt : ∀ x : Int × Int,
        ((neighborsOf cols rows x.1 x.2).countP fun n =>
            (stateAt (adj_step cols rows cells p) (toIdx cols n.1 n.2)).is_mine)
          = (neighborsOf cols rows x.1 x.2).countP fun n =>
              (stateAt cells (toIdx cols n.1 n.2)).is_mine := by
      intro x
      apply List.countP_congr
      intro n _
      rw [hmine_pres]
    have hlen' : (adj_step cols rows cells p).length = cells.length := by
      unfold adj_step
      split
      · rfl
      · rw [length_modifyState]
    rw [List.foldl_cons]
    rw [ih (adj_step cols rows cells p) (fun x hx => hL x (List.mem_cons_of_mem p hx))
      (by rw [hlen']; exact hlen) q hq]
    rw [hmine_pres, hcnt]
    rw [stateAt_adj_step cols rows cells p hpidx, List.contains_cons]
    by_cases hqp : q = p
    · subst hqp
      have hbeq : (q == q) = true := beq_self_eq_true q
      by_cases hmq : (stateAt cells (toIdx cols q.1 q.2)).is_mine = true
      · -- the clicked cell is a mine: the inner step was a no-op either way
        have hcond : ¬(toIdx cols q.1 q.2 = toIdx cols q.1 q.2
            ∧ (stateAt cells (toIdx cols q.1 q.2)).is_mine = false) := by
          rintro ⟨-, h2⟩
          rw [hmq] at h2
          exact absurd h2 (by decide)
        rw [if_neg hcond]
        simp [hbeq, hmq]
      · have hmf := Bool.of_not_eq_true hmq
        have hcondpos : toIdx cols q.1 q.2 = toIdx cols q.1 q.2
            ∧ (stateAt cells (toIdx cols q.1 q.2)).is_mine = false := ⟨rfl, hmf⟩
        rw [if_pos hcondpos]
        by_cases hLq : L.contains q = true
        · simp [hbeq, hLq, hmf, adj_override]
        · simp [hbeq, Bool.of_not_eq_true hLq, hmf]
    · have hidxne : toIdx cols q.1 q.2 ≠ toIdx cols p.1 p.2 := by
        intro hcon
        exact hqp (toIdx_inj hq hpin hcon)
      have hpq : (q == p) = false := by
        rw [beq_eq_false_iff_ne]
        exact hqp
      have hcond : ¬(toIdx cols q.1 q.2 = toIdx cols p.1 p.2
          ∧ (stateAt cells (toIdx cols p.1 p.2)).is_mine = false) := fun h => hidxne h.1
      rw [if_neg hcond, hpq, Bool.false_or]

/-! ## Counting cells through the range of indices -/

theorem stateAt_cons_succ (x : Cell) (xs : List Cell) (n : Nat) :
    stateAt (x :: xs) (n + 1) = stateAt xs n := by
  unfold stateAt
  rw [List.getD_cons_succ]

theorem countP_state_eq_range (p : CellState → Bool) (cells : List Cell) :
    (cells.countP fun cl => p cl.state)
      = (List.range cells.length).countP fun i => p (stateAt cells i) := by
  induction cells with
  | nil => rfl
  | cons x xs ih =>
    rw [List.length_cons, List.range_succ_eq_map, List.countP_cons (a := x),
      List.countP_cons, List.countP_map, ih]
    have hcomp : ((fun i => p (stateAt (x :: xs) i)) ∘ Nat.succ) = fun i => p (stateAt xs i) := by
      funext i
      simp only [Function.comp_apply]
      rw [show Nat.succ i = i + 1 from rfl, stateAt_cons_succ]
    rw [hcomp]
    have hx : stateAt (x :: xs) 0 = x.state := rfl
    rw [hx]

theorem countP_state_congr (p : CellState → Bool) (c1 c2 : List Cell)
    (hlen : c1.length = c2.length) (hpt : ∀ i, p (stateAt c1 i) = p (stateAt c2 i)) :
    (c1.countP fun cl => p cl.state) = c2.countP fun cl => p cl.state := by
  rw [countP_state_eq_range, countP_state_eq_range, hlen]
  exact List.countP_congr fun i _ => by rw [hpt]

theorem stateAt_mem (cells : List Cell) (i : Nat) (h : i < cells.length) :
    ∃ cl ∈ cells, stateAt cells i = cl.state := by
  refine ⟨cells[i], List.getElem_mem h, ?_⟩
  unfold stateAt
  rw [List.getD_eq_getElem _ _ h]

/-! ## `place_mines`: assembled facts -/

theorem place_mines_mines_placed (b : Board) (sc sr : Int)
    (shuffle : List (Int × Int) → List (Int × Int)) :
    (b.place_mines sc sr shuffle).mines_placed = true := rfl

theorem place_mines_scalars (b : Board) (sc sr : Int)
    (shuffle : List (Int × Int) → List (Int × Int)) :
    (b.place_mines sc sr shuffle).cols = b.cols
      ∧ (b.place_mines sc sr shuffle).rows = b.rows
      ∧ (b.place_mines sc sr shuffle).num_mines = b.num_mines
      ∧ (b.place_mines sc sr shuffle).revealed_count = b.revealed_count
      ∧ (b.place_mines sc sr shuffle).game_over = b.game_over
      ∧ (b.place_mines sc sr shuffle).win = b.win :=
  ⟨rfl, rfl, rfl, rfl, rfl, rfl⟩

theorem place_mines_length (b : Board) (sc sr : Int)
    (shuffle : List (Int × Int) → List (Int × Int)) :
    (b.place_mines sc sr shuffle).cells.length = b.cells.length := by
  unfold Board.place_mines
  simp only
  unfold adjacency_pass
  rw [length_adj_foldl, length_mark_mines]

theorem place_mines_rev_eq (b : Board) (sc sr : Int)
    (shuffle : List (Int × Int) → List (Int × Int)) (i : Nat) :
    (stateAt (b.place_mines sc sr shuffle).cells i).is_revealed
      = (stateAt b.cells i).is_revealed := by
  unfold Board.place_mines
  simp only
  unfold adjacency_pass
  rw [field_adj_foldl (fun s => s.is_revealed) (fun _ _ => rfl),
    field_mark_mines (fun s => s.is_revealed) (fun _ => rfl)]

theorem place_mines_flag_eq (b : Board) (sc sr : Int)
    (shuffle : List (Int × Int) → List (Int × Int)) (i : Nat) :
    (stateAt (b.place_mines sc sr shuffle).cells i).is_flagged
      = (stateAt b.cells i).is_flagged := by
  unfold Board.place_mines
  simp only
  unfold adjacency_pass
  rw [field_adj_foldl (fun s => s.is_flagged) (fun _ _ => rfl),
    field_mark_mines (fun s => s.is_flagged) (fun _ => rfl)]

theorem place_mines_mine_eq_mark (b : Board) (sc sr : Int)
    (shuffle : List (Int × Int) → List (Int × Int)) (i : Nat) :
    (stateAt (b.place_mines sc sr shuffle).cells i).is_mine
      = (stateAt (mark_mines b.cols b.cells
          ((shuffle (b.minePool sc sr)).take b.num_mines)) i).is_mine := by
  unfold Board.place_mines
  simp only
  unfold adjacency_pass
  rw [field_adj_foldl (fun s => s.is_mine) (fun _ _ => rfl)]
  rfl

theorem minePositions_subset (b : Board) (sc sr : Int)
    (shuffle : List (Int × Int) → List (Int × Int))
    (hperm : (shuffle (b.minePool sc sr)).Perm (b.minePool sc sr)) :
    ((shuffle (b.minePool sc sr)).take b.num_mines) ⊆ minePoolOf b.cols b.rows sc sr :=
  fun x hx => hperm.subset ((List.take_sublist _ _).subset hx)

theorem minePositions_inb (b : Board) (sc sr : Int)
    (shuffle : List (Int × Int) → List (Int × Int))
    (hperm : (shuffle (b.minePool sc sr)).Perm (b.minePool sc sr)) :
    ∀ p ∈ (shuffle (b.minePool sc sr)).take b.num_mines, inb b.cols b.rows p.1 p.2 = true :=
  fun p hp => minePool_inb (minePositions_subset b sc sr shuffle hperm hp)

theorem minePositions_bounded (b : Board) (sc sr : Int)
    (shuffle : List (Int × Int) → List (Int × Int))
    (hperm : (shuffle (b.minePool sc sr)).Perm (b.minePool sc sr))
    (hlen : b.cells.length = b.cols * b.rows) :
    ∀ p ∈ (shuffle (b.minePool sc sr)).take b.num_mines,
      toIdx b.cols p.1 p.2 < b.cells.length := by
  intro p hp
  rw [hlen]
  exact toIdx_lt (minePositions_inb b sc sr shuffle hperm p hp)

theorem minePositions_nodup_idx (b : Board) (sc sr : Int)
    (shuffle : List (Int × Int) → List (Int × Int))
    (hperm : (shuffle (b.minePool sc sr)).Perm (b.minePool sc sr)) :
    (((shuffle (b.minePool sc sr)).take b.num_mines).map
      fun p => toIdx b.cols p.1 p.2).Nodup := by
  have hnd : ((shuffle (b.minePool sc sr)).take b.num_mines).Nodup :=
    (List.take_sublist _ _).nodup (hperm.nodup_iff.mpr (nodup_minePool _ _ _ _))
  refine List.Nodup.map_on ?_ hnd
  intro x hx y hy hxy
  exact toIdx_inj (minePositions_inb b sc sr shuffle hperm x hx)
    (minePositions_inb b sc sr shuffle hperm y hy) hxy

theorem minePositions_length (b : Board) (sc sr : Int)
    (shuffle : List (Int × Int) → List (Int × Int))
    (hperm : (shuffle (b.minePool sc sr)).Perm (b.minePool sc sr))
    (hfit : b.num_mines ≤ (b.minePool sc sr).length) :
    ((shuffle (b.minePool sc sr)).take b.num_mines).length = b.num_mines := by
  rw [List.length_take, hperm.length_eq]
  exact Nat.min_eq_left hfit

theorem place_mines_mine_iff (b : Board) (sc sr : Int)
    (shuffle : List (Int × Int) → List (Int × Int))
    (hlen : b.cells.length = b.cols * b.rows)
    (hfresh : ∀ cl ∈ b.cells, cl.state.is_mine = false)
    (hperm : (shuffle (b.minePool sc sr)).Perm (b.minePool sc sr)) :
    ∀ q : Int × Int, inb b.cols b.rows q.1 q.2 = true →
      ((stateAt (b.place_mines sc sr shuffle).cells (toIdx b.cols q.1 q.2)).is_mine = true ↔
        q ∈ (shuffle (b.minePool sc sr)).take b.num_mines) := by
  intro q hq
  have hfreshAt : ∀ i, (stateAt b.cells i).is_mine = false := by
    intro i
    rcases Nat.lt_or_ge i b.cells.length with hi | hi
    · obtain ⟨cl, hcl, hst⟩ := stateAt_mem b.cells i hi
      rw [hst]
      exact hfresh cl hcl
    · rw [stateAt_oob b.cells i hi]
      rfl
  rw [place_mines_mine_eq_mark]
  rw [stateAt_mark_mines b.cols b.cells _ (minePositions_bounded b sc sr shuffle hperm hlen)]
  by_cases hany : (((shuffle (b.minePool sc sr)).take b.num_mines).any
      fun p => toIdx b.cols p.1 p.2 == toIdx b.cols q.1 q.2) = true
  · rw [if_pos hany]
    simp only [true_iff]
    rw [List.any_eq_true] at hany
    obtain ⟨p, hp, hpq⟩ := hany
    rw [beq_iff_eq] at hpq
    have := toIdx_inj (minePositions_inb b sc sr shuffle hperm p hp) hq hpq
    rwa [← this]
  · rw [if_neg hany]
    rw [hfreshAt]
    simp only [Bool.false_eq_true, false_iff]
    intro hmem
    apply hany
    rw [List.any_eq_true]
    exact ⟨q, hmem, by rw [beq_iff_eq]⟩

theorem place_mines_count (b : Board) (sc sr : Int)
    (shuffle : List (Int × Int) → List (Int × Int))
    (hlen : b.cells.length = b.cols * b.rows)
    (hfresh : ∀ cl ∈ b.cells, cl.state.is_mine = false)
    (hperm : (shuffle (b.minePool sc sr)).Perm (b.minePool sc sr))
    (hfit : b.num_mines ≤ (b.minePool sc sr).length) :
    ((b.place_mines sc sr shuffle).cells.countP fun cl => cl.state.is_mine) = b.num_mines := by
  have h1 : ((b.place_mines sc sr shuffle).cells.countP fun cl => cl.state.is_mine)
      = ((mark_mines b.cols b.cells
          ((shuffle (b.minePool sc sr)).take b.num_mines)).countP
            fun cl => cl.state.is_mine) := by
    apply countP_state_congr
    · rw [place_mines_length, ← length_mark_mines b.cols b.cells
        ((shuffle (b.minePool sc sr)).take b.num_mines)]
    · intro i
      exact place_mines_mine_eq_mark b sc sr shuffle i
  rw [h1]
  have h0 : (b.cells.countP fun cl => cl.state.is_mine) = 0 := by
    rw [List.countP_eq_zero]
    intro cl hcl
    rw [hfresh cl hcl]
    exact fun h => absurd h (by decide)
  rw [countP_mine_mark_mines b.cols b.cells _
    (minePositions_bounded b sc sr shuffle hperm hlen)
    (minePositions_nodup_idx b sc sr shuffle hperm)
    (fun p hp => by
      rcases Nat.lt_or_ge (toIdx b.cols p.1 p.2) b.cells.length with hi | hi
      · obtain ⟨cl, hcl, hst⟩ := stateAt_mem b.cells _ hi
        rw [hst]
        exact hfresh cl hcl
      · rw [stateAt_oob b.cells _ hi]
        rfl),
    h0, minePositions_length b sc sr shuffle hperm hfit]
  omega

theorem place_mines_safe (b : Board) (sc sr : Int)
    (shuffle : List (Int × Int) → List (Int × Int))
    (hlen : b.cells.length = b.cols * b.rows)
    (hfresh : ∀ cl ∈ b.cells, cl.state.is_mine = false)
    (hperm : (shuffle (b.minePool sc sr)).Perm (b.minePool sc sr)) :
    ∀ q ∈ forbiddenList b.cols b.rows sc sr, inb b.cols b.rows q.1 q.2 = true →
      (stateAt (b.place_mines sc sr shuffle).cells (toIdx b.cols q.1 q.2)).is_mine = false := by
  intro q hqf hq
  rw [← Bool.not_eq_true]
  rw [place_mines_mine_iff b sc sr shuffle hlen hfresh hperm q hq]
  intro hmem
  have hpool := minePositions_subset b sc sr shuffle hperm hmem
  have := (mem_minePool.mp hpool).2
  exact this hqf

theorem place_mines_adjacent (b : Board) (sc sr : Int)
    (shuffle : List (Int × Int) → List (Int × Int))
    (hlen : b.cells.length = b.cols * b.rows)
    (hperm : (shuffle (b.minePool sc sr)).Perm (b.minePool sc sr)) :
    ∀ q : Int × Int, inb b.cols b.rows q.1 q.2 = true →
      (stateAt (b.place_mines sc sr shuffle).cells (toIdx b.cols q.1 q.2)).is_mine = false →
      (stateAt (b.place_mines sc sr shuffle).cells (toIdx b.cols q.1 q.2)).adjacent
        = (neighborsOf b.cols b.rows q.1 q.2).countP fun n =>
            (stateAt (b.place_mines sc sr shuffle).cells (toIdx b.cols n.1 n.2)).is_mine := by
  intro q hq hnm
  have hlenM : (mark_mines b.cols b.cells
      ((shuffle (b.minePool sc sr)).take b.num_mines)).length = b.cols * b.rows := by
    rw [length_mark_mines]
    exact hlen
  have hcells2 : (b.place_mines sc sr shuffle).cells
      = (all_positions b.cols b.rows).foldl (adj_step b.cols b.rows)
          (mark_mines b.cols b.cells ((shuffle (b.minePool sc sr)).take b.num_mines)) := rfl
  have hmark_mine : (stateAt (mark_mines b.cols b.cells
      ((shuffle (b.minePool sc sr)).take b.num_mines)) (toIdx b.cols q.1 q.2)).is_mine = false := by
    rw [← place_mines_mine_eq_mark]
    exact hnm
  have hcontq : (all_positions b.cols b.rows).contains q = true := by
    rw [List.elem_iff]
    exact mem_all_positions.mpr hq
  rw [hcells2]
  rw [stateAt_adj_foldl b.cols b.rows (all_positions b.cols b.rows) _
    (fun p hp => mem_all_positions.mp hp) hlenM q hq]
  rw [hcontq, hmark_mine]
  rw [if_pos (show (true && !false) = true by decide)]
  show ((neighborsOf b.cols b.rows q.1 q.2).countP fun n =>
      (stateAt (mark_mines b.cols b.cells ((shuffle (b.minePool sc sr)).take b.num_mines))
        (toIdx b.cols n.1 n.2)).is_mine)
    = (neighborsOf b.cols b.rows q.1 q.2).countP fun n =>
        (stateAt (b.place_mines sc sr shuffle).cells (toIdx b.cols n.1 n.2)).is_mine
  apply List.countP_congr
  intro n _
  rw [place_mines_mine_eq_mark]

/-! ## The flood-fill loop: basic conservation laws -/

theorem flood_length (cols rows fuel : Nat) (cells : List Cell) (count : Nat)
    (stack : List (Int × Int)) :
    (flood cols rows fuel cells count stack).1.length = cells.length := by
  induction fuel generalizing cells count stack with
  | zero => rfl
  | succ fuel ih =>
    cases stack with
    | nil => rfl
    | cons hd rest =>
      obtain ⟨c, r⟩ := hd
      simp only [flood]
      split
      · split
        · exact ih cells count rest
        · split
          · rw [ih, length_modifyState]
          · rw [ih, length_modifyState]
      · exact ih cells count rest

theorem rev_modify_self (cells : List Cell) (i : Nat) (h : i < cells.length) :
    (stateAt (modifyState cells i fun s => { s with is_revealed := true }) i).is_revealed
      = true := by
  rw [stateAt_modifyState_self cells i _ h]

theorem rev_modify_mono (cells : List Cell) (i j : Nat)
    (h : (stateAt cells j).is_revealed = true) :
    (stateAt (modifyState cells i fun s => { s with is_revealed := true }) j).is_revealed
      = true := by
  rcases Nat.lt_or_ge i cells.length with hi | hi
  · rcases eq_or_ne j i with rfl | hne
    · rw [stateAt_modifyState_self cells j _ hi]
    · rw [stateAt_modifyState_ne cells i j _ hne]
      exact h
  · rw [modifyState_oob cells i _ hi]
    exact h

theorem flood_field {α : Type} (φ : CellState → α)
    (hφ : ∀ s, φ { s with is_revealed := true } = φ s)
    (cols rows fuel : Nat) (cells : List Cell) (count : Nat)
    (stack : List (Int × Int)) (j : Nat) :
    φ (stateAt (flood cols rows fuel cells count stack).1 j) = φ (stateAt cells j) := by
  induction fuel generalizing cells count stack with
  | zero => rfl
  | succ fuel ih =>
    cases stack with
    | nil => rfl
    | cons hd rest =>
      obtain ⟨c, r⟩ := hd
      simp only [flood]
      split
      · split
        · exact ih cells count rest
        · split
          · rw [ih, field_modifyState φ _ hφ]
          · rw [ih, field_modifyState φ _ hφ]
      · exact ih cells count rest

theorem flood_rev_mono (cols rows fuel : Nat) (cells : List Cell) (count : Nat)
    (stack : List (Int × Int)) (j : Nat)
    (h : (stateAt cells j).is_revealed = true) :
    (stateAt (flood cols rows fuel cells count stack).1 j).is_revealed = true := by
  induction fuel generalizing cells count stack with
  | zero => exact h
  | succ fuel ih =>
    cases stack with
    | nil => exact h
    | cons hd rest =>
      obtain ⟨c, r⟩ := hd
      simp only [flood]
      split
      · split
        · exact ih cells count rest h
        · split
          · exact ih _ _ _ (rev_modify_mono cells _ j h)
          · exact ih _ _ _ (rev_modify_mono cells _ j h)
      · exact ih cells count rest h

theorem flood_count (cols rows fuel : Nat) (cells : List Cell) (count : Nat)
    (stack : List (Int × Int)) :
    (flood cols rows fuel cells count stack).2
        + (cells.countP fun cl => cl.state.is_revealed)
      = count + ((flood cols rows fuel cells count stack).1.countP
          fun cl => cl.state.is_revealed) := by
  induction fuel generalizing cells count stack with
  | zero => rfl
  | succ fuel ih =>
    cases stack with
    | nil => rfl
    | cons hd rest =>
      obtain ⟨c, r⟩ := hd
      simp only [flood]
      split
      case isTrue hidx =>
        split
        case isTrue hskip => exact ih cells count rest
        case isFalse hkeep =>
          simp only [Bool.or_eq_true, not_or, Bool.not_eq_true] at hkeep
          have hcnt := countP_modifyState (fun s => s.is_revealed) cells (toIdx cols c r)
            (fun s => { s with is_revealed := true }) hidx
          simp [hkeep.1] at hcnt
          have key : ∀ S : List (Int × Int),
              (flood cols rows fuel
                  (modifyState cells (toIdx cols c r) fun s => { s with is_revealed := true })
                  (count + 1) S).2
                + (cells.countP fun cl => cl.state.is_revealed)
              = count + ((flood cols rows fuel
                  (modifyState cells (toIdx cols c r) fun s => { s with is_revealed := true })
                  (count + 1) S).1.countP fun cl => cl.state.is_revealed) := by
            intro S
            have := ih (modifyState cells (toIdx cols c r) fun s => { s with is_revealed := true })
              (count + 1) S
            omega
          split
          · exact key _
          · exact key _
      case isFalse hidx => exact ih cells count rest

theorem flood_count_nonmine (cols rows fuel : Nat) (cells : List Cell) (count : Nat)
    (stack : List (Int × Int))
    (hstack : ∀ p ∈ stack, (stateAt cells (toIdx cols p.1 p.2)).is_mine = false) :
    (flood cols rows fuel cells count stack).2
        + (cells.countP fun cl => cl.state.is_revealed && !cl.state.is_mine)
      = count + ((flood cols rows fuel cells count stack).1.countP
          fun cl => cl.state.is_revealed && !cl.state.is_mine) := by
  induction fuel generalizing cells count stack with
  | zero => rfl
  | succ fuel ih =>
    cases stack with
    | nil => rfl
    | cons hd rest =>
      obtain ⟨c, r⟩ := hd
      simp only [flood]
      split
      case isTrue hidx =>
        split
        case isTrue hskip =>
          exact ih cells count rest fun p hp => hstack p (List.mem_cons_of_mem _ hp)
        case isFalse hkeep =>
          simp only [Bool.or_eq_true, not_or, Bool.not_eq_true] at hkeep
          have hmhd : (stateAt cells (toIdx cols c r)).is_mine = false :=
            hstack (c, r) (List.mem_cons_self _ rest)
          have hcnt := countP_modifyState (fun s => s.is_revealed && !s.is_mine) cells
            (toIdx cols c r) (fun s => { s with is_revealed := true }) hidx
          simp [hkeep.1, hmhd] at hcnt
          have hsk : ∀ p : Int × Int,
              (stateAt (modifyState cells (toIdx cols c r)
                  fun s => { s with is_revealed := true }) (toIdx cols p.1 p.2)).is_mine
                = (stateAt cells (toIdx cols p.1 p.2)).is_mine :=
            fun p => field_modifyState (fun s => s.is_mine)
              (fun s => { s with is_revealed := true }) (fun _ => rfl) cells _ _
          have key : ∀ S : List (Int × Int),
              (∀ p ∈ S, (stateAt (modifyState cells (toIdx cols c r)
                  fun s => { s with is_revealed := true }) (toIdx cols p.1 p.2)).is_mine = false) →
              (flood cols rows fuel
                  (modifyState cells (toIdx cols c r) fun s => { s with is_revealed := true })
                  (count + 1) S).2
                + (cells.countP fun cl => cl.state.is_revealed && !cl.state.is_mine)
              = count + ((flood cols rows fuel
                  (modifyState cells (toIdx cols c r) fun s => { s with is_revealed := true })
                  (count + 1) S).1.countP
                    fun cl => cl.state.is_revealed && !cl.state.is_mine) := by
            intro S hS
            have := ih (modifyState cells (toIdx cols c r) fun s => { s with is_revealed := true })
              (count + 1) S hS
            omega
          split
          · refine key _ ?_
            intro p hp
            rcases List.mem_append.mp hp with hp1 | hp2
            · rw [List.mem_reverse] at hp1
              have := (List.mem_filter.mp hp1).2
              simp only [Bool.and_eq_true, Bool.not_eq_true'] at this
              exact this.2
            · rw [hsk p]
              exact hstack p (List.mem_cons_of_mem _ hp2)
          · refine key _ ?_
            intro p hp
            rw [hsk p]
            exact hstack p (List.mem_cons_of_mem _ hp)
      case isFalse hidx =>
        exact ih cells count rest fun p hp => hstack p (List.mem_cons_of_mem _ hp)

theorem flood_covers (cols rows fuel : Nat) (cells : List Cell) (count : Nat)
    (stack : List (Int × Int))
    (hlen : cells.length = cols * rows)
    (hstack : ∀ p ∈ stack, inb cols rows p.1 p.2 = true)
    (hfuel : 9 * (cells.countP fun cl => !cl.state.is_revealed) + stack.length < fuel) :
    ∀ p ∈ stack, (stateAt cells (toIdx cols p.1 p.2)).is_flagged = false →
      (stateAt (flood cols rows fuel cells count stack).1 (toIdx cols p.1 p.2)).is_revealed
        = true := by
  induction fuel generalizing cells count stack with
  | zero => exact absurd hfuel (by omega)
  | succ fuel ih =>
    cases stack with
    | nil =>
      intro p hp
      exact absurd hp (List.not_mem_nil p)
    | cons hd rest =>
      obtain ⟨c, r⟩ := hd
      have hhd : inb cols rows c r = true := hstack (c, r) (List.mem_cons_self _ rest)
      simp only [flood]
      split
      case isTrue hidx =>
        split
        case isTrue hskip =>
          intro p hp hflag
          rcases List.mem_cons.mp hp with heq | hmem
          · subst heq
            have hrev : (stateAt cells (toIdx cols c r)).is_revealed = true := by
              rcases Bool.or_eq_true_iff.mp hskip with h1 | h1
              · exact h1
              · rw [hflag] at h1
                exact absurd h1 (by decide)
            exact flood_rev_mono cols rows fuel cells count rest _ hrev
          · exact ih cells count rest hlen
              (fun x hx => hstack x (List.mem_cons_of_mem _ hx))
              (by simp only [List.length_cons] at hfuel; omega) p hmem hflag
        case isFalse hkeep =>
          simp only [Bool.or_eq_true, not_or, Bool.not_eq_true] at hkeep
          have hu := countP_modifyState (fun s => !s.is_revealed) cells (toIdx cols c r)
            (fun s => { s with is_revealed := true }) hidx
          simp [hkeep.1] at hu
          have hlen2 : (modifyState cells (toIdx cols c r)
              fun s => { s with is_revealed := true }).length = cols * rows := by
            rw [length_modifyState]; exact hlen
          have hflag2 : ∀ j, (stateAt (modifyState cells (toIdx cols c r)
              fun s => { s with is_revealed := true }) j).is_flagged
                = (stateAt cells j).is_flagged :=
            fun j => field_modifyState (fun s => s.is_flagged)
              (fun s => { s with is_revealed := true }) (fun _ => rfl) cells _ j
          split
          case isTrue hadj0 =>
            intro p hp hflag
            rcases List.mem_cons.mp hp with heq | hmem
            · subst heq
              exact flood_rev_mono cols rows fuel _ (count + 1) _ _
                (rev_modify_self cells _ hidx)
            · have hpl : ((neighborsOf cols rows c r).filter fun q =>
                  !(stateAt (modifyState cells (toIdx cols c r)
                      fun s => { s with is_revealed := true }) (toIdx cols q.1 q.2)).is_revealed &&
                    !(stateAt (modifyState cells (toIdx cols c r)
                      fun s => { s with is_revealed := true }) (toIdx cols q.1 q.2)).is_mine).length
                  ≤ 8 :=
                le_trans (List.length_filter_le _ _) (length_neighborsOf_le cols rows c r)
              refine ih _ (count + 1) _ hlen2 ?_ ?_ p ?_ ?_
              · intro x hx
                rcases List.mem_append.mp hx with hx1 | hx2
                · rw [List.mem_reverse] at hx1
                  exact neighborsOf_inb (List.mem_filter.mp hx1).1
                · exact hstack x (List.mem_cons_of_mem _ hx2)
              · rw [List.length_append, List.length_reverse]
                simp only [List.length_cons] at hfuel
                omega
              · exact List.mem_append_right _ hmem
              · rw [hflag2]
                exact hflag
          case isFalse hadjn =>
            intro p hp hflag
            rcases List.mem_cons.mp hp with heq | hmem
            · subst heq
              exact flood_rev_mono cols rows fuel _ (count + 1) _ _
                (rev_modify_self cells _ hidx)
            · refine ih _ (count + 1) rest hlen2 ?_ ?_ p hmem ?_
              · exact fun x hx => hstack x (List.mem_cons_of_mem _ hx)
              · simp only [List.length_cons] at hfuel
                omega
              · rw [hflag2]
                exact hflag
      case isFalse hidx =>
        exact absurd (by rw [hlen]; exact toIdx_lt hhd) hidx

theorem FloodReach_mono (cols rows : Nat) (cells0 : List Cell)
    (stack stack' : List (Int × Int))
    (hbase : ∀ p ∈ stack', FloodReach cols rows cells0 stack p) :
    ∀ q : Int × Int, FloodReach cols rows cells0 stack' q →
      FloodReach cols rows cells0 stack q := by
  intro q hq
  induction hq with
  | base hp => exact hbase _ hp
  | step _ hf hr ha hn hm ih => exact FloodReach.step ih hf hr ha hn hm

theorem flood_sound (cols rows fuel : Nat) (cells0 : List Cell) :
    ∀ (cells : List Cell) (count : Nat) (stack : List (Int × Int)),
      (∀ p ∈ stack, inb cols rows p.1 p.2 = true) →
      (∀ i, (stateAt cells i).is_mine = (stateAt cells0 i).is_mine) →
      (∀ i, (stateAt cells i).is_flagged = (stateAt cells0 i).is_flagged) →
      (∀ i, (stateAt cells i).adjacent = (stateAt cells0 i).adjacent) →
      (∀ i, (stateAt cells0 i).is_revealed = true → (stateAt cells i).is_revealed = true) →
      ∀ q : Int × Int, inb cols rows q.1 q.2 = true →
        (stateAt (flood cols rows fuel cells count stack).1 (toIdx cols q.1 q.2)).is_revealed
          = true →
        (stateAt cells (toIdx cols q.1 q.2)).is_revealed = true
          ∨ (FloodReach cols rows cells0 stack q
              ∧ (stateAt cells0 (toIdx cols q.1 q.2)).is_flagged = false) := by
  induction fuel with
  | zero =>
    intro cells count stack _ _ _ _ _ q _ hF
    exact Or.inl hF
  | succ fuel ih =>
    intro cells count stack hstack hmine hflag hadj hrev0 q hq
    cases stack with
    | nil => exact fun hF => Or.inl hF
    | cons hd rest =>
      obtain ⟨c, r⟩ := hd
      have hhd : inb cols rows c r = true := hstack (c, r) (List.mem_cons_self _ rest)
      simp only [flood]
      split
      case isTrue hidx =>
        split
        case isTrue hskip =>
          intro hF
          rcases ih cells count rest (fun x hx => hstack x (List.mem_cons_of_mem _ hx))
              hmine hflag hadj hrev0 q hq hF with h | ⟨hre, hfl⟩
          · exact Or.inl h
          · exact Or.inr ⟨FloodReach_mono cols rows cells0 _ rest
              (fun x hx => FloodReach.base (List.mem_cons_of_mem _ hx)) q hre, hfl⟩
        case isFalse hkeep =>
          simp only [Bool.or_eq_true, not_or, Bool.not_eq_true] at hkeep
          -- facts about the popped head
          have hflag_hd : (stateAt cells0 (toIdx cols c r)).is_flagged = false := by
            rw [← hflag]; exact hkeep.2
          have hrev_hd : (stateAt cells0 (toIdx cols c r)).is_revealed = false := by
            rcases h0 : (stateAt cells0 (toIdx cols c r)).is_revealed with _ | _
            · rfl
            · rw [hrev0 _ h0] at hkeep
              exact absurd hkeep.1 (by decide)
          -- the updated array still agrees with cells0 off the revealed field
          have hmine2 : ∀ i, (stateAt (modifyState cells (toIdx cols c r)
              fun s => { s with is_revealed := true }) i).is_mine
                = (stateAt cells0 i).is_mine := fun i => by
            rw [field_modifyState (fun s => s.is_mine)
              (fun s => { s with is_revealed := true }) (fun _ => rfl) cells _ i, hmine]
          have hflag2 : ∀ i, (stateAt (modifyState cells (toIdx cols c r)
              fun s => { s with is_revealed := true }) i).is_flagged
                = (stateAt cells0 i).is_flagged := fun i => by
            rw [field_modifyState (fun s => s.is_flagged)
              (fun s => { s with is_revealed := true }) (fun _ => rfl) cells _ i, hflag]
          have hadj2 : ∀ i, (stateAt (modifyState cells (toIdx cols c r)
              fun s => { s with is_revealed := true }) i).adjacent
                = (stateAt cells0 i).adjacent := fun i => by
            rw [field_modifyState (fun s => s.adjacent)
              (fun s => { s with is_revealed := true }) (fun _ => rfl) cells _ i, hadj]
          have hrev02 : ∀ i, (stateAt cells0 i).is_revealed = true →
              (stateAt (modifyState cells (toIdx cols c r)
                fun s => { s with is_revealed := true }) i).is_revealed = true :=
            fun i h => rev_modify_mono cells _ i (hrev0 i h)
          split
          case isTrue hadj0 =>
            intro hF
            have hadjhd : (stateAt cells0 (toIdx cols c r)).adjacent = 0 := by
              rw [← hadj]
              exact beq_iff_eq.mp hadj0
            have hbase' : ∀ x ∈ (((neighborsOf cols rows c r).filter fun n =>
                !(stateAt (modifyState cells (toIdx cols c r)
                    fun s => { s with is_revealed := true }) (toIdx cols n.1 n.2)).is_revealed &&
                  !(stateAt (modifyState cells (toIdx cols c r)
                    fun s => { s with is_revealed := true }) (toIdx cols n.1 n.2)).is_mine).reverse
                  ++ rest),
                FloodReach cols rows cells0 ((c, r) :: rest) x := by
              intro x hx
              rcases List.mem_append.mp hx with hx1 | hx2
              · rw [List.mem_reverse] at hx1
                have hx1' := List.mem_filter.mp hx1
                have hxmine : (stateAt cells0 (toIdx cols x.1 x.2)).is_mine = false := by
                  have := hx1'.2
                  simp only [Bool.and_eq_true, Bool.not_eq_true'] at this
                  rw [← hmine2 (toIdx cols x.1 x.2)]
                  exact this.2
                exact FloodReach.step (FloodReach.base (List.mem_cons_self _ rest))
                  hflag_hd hrev_hd hadjhd hx1'.1 hxmine
              · exact FloodReach.base (List.mem_cons_of_mem _ hx2)
            rcases ih _ (count + 1) _ (fun x hx => by
                rcases List.mem_append.mp hx with hx1 | hx2
                · rw [List.mem_reverse] at hx1
                  exact neighborsOf_inb (List.mem_filter.mp hx1).1
                · exact hstack x (List.mem_cons_of_mem _ hx2))
              hmine2 hflag2 hadj2 hrev02 q hq hF with h | ⟨hre, hfl⟩
            · -- revealed in the updated array: either the popped cell or already revealed
              rcases Nat.decEq (toIdx cols q.1 q.2) (toIdx cols c r) with hne | heq
              · rw [stateAt_modifyState_ne cells _ _ _ hne] at h
                exact Or.inl h
              · have : q = (c, r) := toIdx_inj hq hhd heq
                subst this
                exact Or.inr ⟨FloodReach.base (List.mem_cons_self _ rest), hflag_hd⟩
            · exact Or.inr ⟨FloodReach_mono cols rows cells0 _ _ hbase' q hre, hfl⟩
          case isFalse hadjn =>
            intro hF
            rcases ih _ (count + 1) rest
                (fun x hx => hstack x (List.mem_cons_of_mem _ hx))
              hmine2 hflag2 hadj2 hrev02 q hq hF with h | ⟨hre, hfl⟩
            · rcases Nat.decEq (toIdx cols q.1 q.2) (toIdx cols c r) with hne | heq
              · rw [stateAt_modifyState_ne cells _ _ _ hne] at h
                exact Or.inl h
              · have : q = (c, r) := toIdx_inj hq hhd heq
                subst this
                exact Or.inr ⟨FloodReach.base (List.mem_cons_self _ rest), hflag_hd⟩
            · exact Or.inr ⟨FloodReach_mono cols rows cells0 _ rest
                (fun x hx => FloodReach.base (List.mem_cons_of_mem _ hx)) q hre, hfl⟩
      case isFalse hidx =>
        intro hF
        rcases ih cells count rest (fun x hx => hstack x (List.mem_cons_of_mem _ hx))
            hmine hflag hadj hrev0 q hq hF with h | ⟨hre, hfl⟩
        · exact Or.inl h
        · exact Or.inr ⟨FloodReach_mono cols rows cells0 _ rest
            (fun x hx => FloodReach.base (List.mem_cons_of_mem _ hx)) q hre, hfl⟩


theorem flood_closed (cols rows fuel : Nat) (cells0 : List Cell) :
    ∀ (cells : List Cell) (count : Nat) (stack : List (Int × Int)),
      cells.length = cols * rows →
      (∀ p ∈ stack, inb cols rows p.1 p.2 = true) →
      9 * (cells.countP fun cl => !cl.state.is_revealed) + stack.length < fuel →
      (∀ i, (stateAt cells i).is_mine = (stateAt cells0 i).is_mine) →
      (∀ i, (stateAt cells i).is_flagged = (stateAt cells0 i).is_flagged) →
      (∀ i, (stateAt cells i).adjacent = (stateAt cells0 i).adjacent) →
      (∀ i, (stateAt cells0 i).is_revealed = true → (stateAt cells i).is_revealed = true) →
      ∀ q : Int × Int, inb cols rows q.1 q.2 = true →
        (stateAt (flood cols rows fuel cells count stack).1 (toIdx cols q.1 q.2)).is_revealed
          = true →
        (stateAt cells (toIdx cols q.1 q.2)).is_revealed = true
          ∨ ((stateAt cells0 (toIdx cols q.1 q.2)).adjacent = 0 →
              ∀ y ∈ neighborsOf cols rows q.1 q.2,
                (stateAt cells0 (toIdx cols y.1 y.2)).is_mine = false →
                (stateAt cells0 (toIdx cols y.1 y.2)).is_flagged = false →
                (stateAt (flood cols rows fuel cells count stack).1
                  (toIdx cols y.1 y.2)).is_revealed = true) := by
  induction fuel with
  | zero =>
    intro cells count stack _ _ hfuel
    exact absurd hfuel (by omega)
  | succ fuel ih =>
    intro cells count stack hlen hstack hfuel hmine hflag hadj hrev0 q hq
    cases stack with
    | nil => exact fun hF => Or.inl hF
    | cons hd rest =>
      obtain ⟨c, r⟩ := hd
      have hhd : inb cols rows c r = true := hstack (c, r) (List.mem_cons_self _ rest)
      simp only [flood]
      split
      case isTrue hidx =>
        split
        case isTrue hskip =>
          intro hF
          rcases ih cells count rest hlen (fun x hx => hstack x (List.mem_cons_of_mem _ hx))
              (by simp only [List.length_cons] at hfuel; omega)
              hmine hflag hadj hrev0 q hq hF with h | h
          · exact Or.inl h
          · exact Or.inr h
        case isFalse hkeep =>
          simp only [Bool.or_eq_true, not_or, Bool.not_eq_true] at hkeep
          set cells2 := modifyState cells (toIdx cols c r)
            fun s => { s with is_revealed := true } with hc2
          have hu := countP_modifyState (fun s => !s.is_revealed) cells (toIdx cols c r)
            (fun s => { s with is_revealed := true }) hidx
          simp [hkeep.1] at hu
          have hlen2 : cells2.length = cols * rows := by
            rw [hc2, length_modifyState]; exact hlen
          have hmine2 : ∀ i, (stateAt cells2 i).is_mine = (stateAt cells0 i).is_mine :=
            fun i => by
              rw [hc2, field_modifyState (fun s => s.is_mine)
                (fun s => { s with is_revealed := true }) (fun _ => rfl) cells _ i, hmine]
          have hflag2 : ∀ i, (stateAt cells2 i).is_flagged = (stateAt cells0 i).is_flagged :=
            fun i => by
              rw [hc2, field_modifyState (fun s => s.is_flagged)
                (fun s => { s with is_revealed := true }) (fun _ => rfl) cells _ i, hflag]
          have hadj2 : ∀ i, (stateAt cells2 i).adjacent = (stateAt cells0 i).adjacent :=
            fun i => by
              rw [hc2, field_modifyState (fun s => s.adjacent)
                (fun s => { s with is_revealed := true }) (fun _ => rfl) cells _ i, hadj]
          have hrev02 : ∀ i, (stateAt cells0 i).is_revealed = true →
              (stateAt cells2 i).is_revealed = true :=
            fun i h => by rw [hc2]; exact rev_modify_mono cells _ i (hrev0 i h)
          have hucount : (cells2.countP fun cl => !cl.state.is_revealed) + 1
              = cells.countP fun cl => !cl.state.is_revealed := hu
          split
          case isTrue hadj0 =>
            set pushed := (neighborsOf cols rows c r).filter fun n =>
              !(stateAt cells2 (toIdx cols n.1 n.2)).is_revealed &&
                !(stateAt cells2 (toIdx cols n.1 n.2)).is_mine with hpd
            have hstack' : ∀ x ∈ pushed.reverse ++ rest, inb cols rows x.1 x.2 = true := by
              intro x hx
              rcases List.mem_append.mp hx with hx1 | hx2
              · rw [List.mem_reverse] at hx1
                exact neighborsOf_inb (List.mem_filter.mp (hpd ▸ hx1)).1
              · exact hstack x (List.mem_cons_of_mem _ hx2)
            have hfuel2 : 9 * (cells2.countP fun cl => !cl.state.is_revealed)
                + (pushed.reverse ++ rest).length < fuel := by
              have hpl : pushed.length ≤ 8 := by
                rw [hpd]
                exact le_trans (List.length_filter_le _ _) (length_neighborsOf_le cols rows c r)
              rw [List.length_append, List.length_reverse]
              simp only [List.length_cons] at hfuel
              omega
            intro hF
            rcases ih cells2 (count + 1) (pushed.reverse ++ rest) hlen2 hstack' hfuel2
                hmine2 hflag2 hadj2 hrev02 q hq hF with h | h
            · rcases Nat.decEq (toIdx cols q.1 q.2) (toIdx cols c r) with hne | heq
              · rw [hc2, stateAt_modifyState_ne cells _ _ _ hne] at h
                exact Or.inl h
              · have hqcr : q = (c, r) := toIdx_inj hq hhd heq
                subst hqcr
                refine Or.inr ?_
                intro _ y hy hym hyf
                by_cases hyrev : (stateAt cells2 (toIdx cols y.1 y.2)).is_revealed = true
                · exact flood_rev_mono cols rows fuel _ (count + 1) _ _ hyrev
                · have hyrev' := Bool.of_not_eq_true hyrev
                  have hymine2 : (stateAt cells2 (toIdx cols y.1 y.2)).is_mine = false := by
                    rw [hmine2]; exact hym
                  have hymem : y ∈ pushed := by
                    rw [hpd, List.mem_filter]
                    refine ⟨hy, ?_⟩
                    rw [hyrev', hymine2]
                    rfl
                  refine flood_covers cols rows fuel cells2 (count + 1) _ hlen2 hstack' hfuel2 y
                    (List.mem_append_left _ (List.mem_reverse.mpr hymem)) ?_
                  rw [hflag2]
                  exact hyf
            · exact Or.inr h
          case isFalse hadjn =>
            intro hF
            rcases ih cells2 (count + 1) rest hlen2
                (fun x hx => hstack x (List.mem_cons_of_mem _ hx))
                (by simp only [List.length_cons] at hfuel; omega)
                hmine2 hflag2 hadj2 hrev02 q hq hF with h | h
            · rcases Nat.decEq (toIdx cols q.1 q.2) (toIdx cols c r) with hne | heq
              · rw [hc2, stateAt_modifyState_ne cells _ _ _ hne] at h
                exact Or.inl h
              · have hqcr : q = (c, r) := toIdx_inj hq hhd heq
                subst hqcr
                refine Or.inr ?_
                intro hq0 y hy hym hyf
                exact absurd (by rw [beq_iff_eq, hadj]; exact hq0) hadjn
            · exact Or.inr h
      case isFalse hidx =>
        exact absurd (by rw [hlen]; exact toIdx_lt hhd) hidx

/-! ## Unfolding the branches of `Board.reveal` -/

theorem reveal_oob (b : Board) (col row : Int)
    (shuffle : List (Int × Int) → List (Int × Int))
    (h : b.is_inbounds col row = false) :
    b.reveal col row shuffle = b := by
  unfold Board.reveal
  rw [h]
  rfl

theorem reveal_unplaced (b : Board) (col row : Int)
    (shuffle : List (Int × Int) → List (Int × Int))
    (hin : b.is_inbounds col row = true)
    (hup : b.mines_placed = false) :
    b.reveal col row shuffle = (b.place_mines col row shuffle).reveal col row shuffle := by
  have hin' : (b.place_mines col row shuffle).is_inbounds col row = true := hin
  conv_rhs => unfold Board.reveal
  rw [hin']
  conv_lhs => unfold Board.reveal
  rw [hin, hup]
  rfl

theorem reveal_guard (b : Board) (col row : Int)
    (shuffle : List (Int × Int) → List (Int × Int))
    (hin : b.is_inbounds col row = true)
    (hplaced : b.mines_placed = true)
    (hguard : ((stateAt b.cells (toIdx b.cols col row)).is_flagged
        || (stateAt b.cells (toIdx b.cols col row)).is_revealed) = true) :
    b.reveal col row shuffle = b := by
  unfold Board.reveal
  rw [hin, hplaced]
  simp only [if_true]
  rw [hguard]
  rfl

theorem reveal_mine (b : Board) (col row : Int)
    (shuffle : List (Int × Int) → List (Int × Int))
    (hin : b.is_inbounds col row = true)
    (hplaced : b.mines_placed = true)
    (hflag : (stateAt b.cells (toIdx b.cols col row)).is_flagged = false)
    (hrev : (stateAt b.cells (toIdx b.cols col row)).is_revealed = false)
    (hmine : (stateAt b.cells (toIdx b.cols col row)).is_mine = true) :
    b.reveal col row shuffle = Board.reveal_all_mines
      { b with
        cells := modifyState b.cells (toIdx b.cols col row)
          fun s => { s with is_revealed := true }
        game_over := true } := by
  unfold Board.reveal
  rw [hin, hplaced]
  simp only [if_true]
  rw [hflag, hrev, hmine]
  rw [if_neg (by decide : ¬((false || false) = true)), if_pos (rfl : (true : Bool) = true)]
  rw [hplaced]

theorem reveal_flood (b : Board) (col row : Int)
    (shuffle : List (Int × Int) → List (Int × Int))
    (hin : b.is_inbounds col row = true)
    (hplaced : b.mines_placed = true)
    (hflag : (stateAt b.cells (toIdx b.cols col row)).is_flagged = false)
    (hrev : (stateAt b.cells (toIdx b.cols col row)).is_revealed = false)
    (hmine : (stateAt b.cells (toIdx b.cols col row)).is_mine = false) :
    b.reveal col row shuffle = Board.check_win
      { b with
        cells := (flood b.cols b.rows (floodFuel b.cells) b.cells
          b.revealed_count [(col, row)]).1
        revealed_count := (flood b.cols b.rows (floodFuel b.cells) b.cells
          b.revealed_count [(col, row)]).2 } := by
  unfold Board.reveal
  rw [hin, hplaced]
  simp only [if_true]
  rw [hflag, hrev, hmine]
  rw [if_neg (by decide : ¬((false || false) = true)),
    if_neg (by decide : ¬((false : Bool) = true))]
  rw [hplaced]

/-! ## `_reveal_all_mines`, `_check_win`, `toggle_flag` -/

theorem stateAt_map (f : CellState → CellState) (cells : List Cell) (i : Nat)
    (h : i < cells.length) :
    stateAt (cells.map fun cl => { cl with state := f cl.state }) i = f (stateAt cells i) := by
  induction cells generalizing i with
  | nil => simp at h
  | cons x xs ih =>
    cases i with
    | zero => rfl
    | succ n =>
      simp only [List.length_cons, Nat.succ_lt_succ_iff] at h
      simp only [List.map_cons, stateAt_cons_succ]
      exact ih n h

theorem reveal_all_mines_cells (b : Board) :
    (b.reveal_all_mines).cells = b.cells.map fun cl =>
      { cl with state :=
          if cl.state.is_mine then { cl.state with is_revealed := true } else cl.state } := by
  unfold Board.reveal_all_mines
  simp only
  apply List.map_congr_left
  intro cl _
  by_cases h : cl.state.is_mine = true
  · rw [if_pos h, if_pos h]
  · rw [if_neg h, if_neg h]

theorem reveal_all_mines_scalars (b : Board) :
    (b.reveal_all_mines).cols = b.cols ∧ (b.reveal_all_mines).rows = b.rows
      ∧ (b.reveal_all_mines).num_mines = b.num_mines
      ∧ (b.reveal_all_mines).mines_placed = b.mines_placed
      ∧ (b.reveal_all_mines).revealed_count = b.revealed_count
      ∧ (b.reveal_all_mines).game_over = b.game_over
      ∧ (b.reveal_all_mines).win = b.win :=
  ⟨rfl, rfl, rfl, rfl, rfl, rfl, rfl⟩

theorem reveal_all_mines_length (b : Board) :
    (b.reveal_all_mines).cells.length = b.cells.length := by
  rw [reveal_all_mines_cells, List.length_map]

theorem reveal_all_mines_stateAt (b : Board) (i : Nat) (h : i < b.cells.length) :
    stateAt (b.reveal_all_mines).cells i =
      if (stateAt b.cells i).is_mine then { stateAt b.cells i with is_revealed := true }
      else stateAt b.cells i := by
  rw [reveal_all_mines_cells, stateAt_map
    (fun s => if s.is_mine then { s with is_revealed := true } else s) b.cells i h]

/-- The win condition tested by `_check_win`, as a proposition. -/
theorem check_win_cond_iff (b : Board) :
    ((((b.revealed_count : Int) == ((b.cols : Int) * (b.rows : Int) - (b.num_mines : Int)))
        && !b.game_over) = true)
      ↔ ((b.revealed_count : Int) = (b.cols : Int) * (b.rows : Int) - (b.num_mines : Int)
          ∧ b.game_over = false) := by
  rw [Bool.and_eq_true, beq_iff_eq, Bool.not_eq_true']

theorem check_win_neg (b : Board)
    (h : ¬((b.revealed_count : Int) = (b.cols : Int) * (b.rows : Int) - (b.num_mines : Int)
        ∧ b.game_over = false)) :
    b.check_win = b := by
  unfold Board.check_win
  rw [if_neg (fun hc => h ((check_win_cond_iff b).mp hc))]

theorem check_win_pos (b : Board)
    (h : (b.revealed_count : Int) = (b.cols : Int) * (b.rows : Int) - (b.num_mines : Int)
        ∧ b.game_over = false) :
    b.check_win = { b with
      win := true
      cells := b.cells.map fun cl =>
        if !cl.state.is_revealed && !cl.state.is_mine then
          { cl with state := { cl.state with is_revealed := true } }
        else cl } := by
  unfold Board.check_win
  rw [if_pos ((check_win_cond_iff b).mpr h)]

theorem check_win_pos_cells (b : Board) :
    (b.cells.map fun cl =>
        if !cl.state.is_revealed && !cl.state.is_mine then
          { cl with state := { cl.state with is_revealed := true } }
        else cl)
      = b.cells.map fun cl =>
          { cl with state :=
              if !cl.state.is_revealed && !cl.state.is_mine then
                { cl.state with is_revealed := true }
              else cl.state } := by
  apply List.map_congr_left
  intro cl _
  by_cases h : (!cl.state.is_revealed && !cl.state.is_mine) = true
  · rw [if_pos h, if_pos h]
  · rw [if_neg h, if_neg h]

theorem check_win_all_revealed (b : Board)
    (hall : ∀ cl ∈ b.cells, (!cl.state.is_revealed && !cl.state.is_mine) = false) :
    (b.cells.map fun cl =>
        if !cl.state.is_revealed && !cl.state.is_mine then
          { cl with state := { cl.state with is_revealed := true } }
        else cl)
      = b.cells := by
  conv_rhs => rw [← List.map_id b.cells]
  apply List.map_congr_left
  intro cl hcl
  rw [if_neg (by rw [hall cl hcl]; exact fun hc => absurd hc (by decide))]
  rfl

theorem toggle_flag_oob (b : Board) (col row : Int)
    (h : b.is_inbounds col row = false) :
    b.toggle_flag col row = b := by
  unfold Board.toggle_flag
  rw [h]
  rfl

theorem toggle_flag_revealed (b : Board) (col row : Int)
    (hin : b.is_inbounds col row = true)
    (hrev : (stateAt b.cells (toIdx b.cols col row)).is_revealed = true) :
    b.toggle_flag col row = b := by
  unfold Board.toggle_flag
  rw [hin, hrev]
  rfl

theorem toggle_flag_hidden (b : Board) (col row : Int)
    (hin : b.is_inbounds col row = true)
    (hrev : (stateAt b.cells (toIdx b.cols col row)).is_revealed = false) :
    b.toggle_flag col row =
      { b with cells := modifyState b.cells (toIdx b.cols col row) fun s =>
          { s with is_flagged := !s.is_flagged } } := by
  unfold Board.toggle_flag
  rw [hin, hrev]
  rfl

/-! ## Field-level facts about whole operations -/

theorem check_win_scalars (b : Board) :
    (b.check_win).cols = b.cols ∧ (b.check_win).rows = b.rows
      ∧ (b.check_win).num_mines = b.num_mines
      ∧ (b.check_win).mines_placed = b.mines_placed
      ∧ (b.check_win).revealed_count = b.revealed_count
      ∧ (b.check_win).game_over = b.game_over := by
  unfold Board.check_win
  split
  · exact ⟨rfl, rfl, rfl, rfl, rfl, rfl⟩
  · exact ⟨rfl, rfl, rfl, rfl, rfl, rfl⟩

theorem check_win_length (b : Board) :
    (b.check_win).cells.length = b.cells.length := by
  unfold Board.check_win
  split
  · exact List.length_map _ _
  · rfl

theorem check_win_win_iff (b : Board) :
    (b.check_win).win = true ↔
      (((b.revealed_count : Int) = (b.cols : Int) * (b.rows : Int) - (b.num_mines : Int)
          ∧ b.game_over = false) ∨ b.win = true) := by
  unfold Board.check_win
  split
  case isTrue h =>
    refine ⟨fun _ => Or.inl ((check_win_cond_iff b).mp h), fun _ => ?_⟩
    rfl
  case isFalse h =>
    constructor
    · intro hw
      exact Or.inr hw
    · rintro (hc | hw)
      · exact absurd ((check_win_cond_iff b).mpr hc) h
      · exact hw

theorem toggle_flag_cases (b : Board) (col row : Int) :
    b.toggle_flag col row = b
      ∨ b.toggle_flag col row =
          { b with cells := modifyState b.cells (toIdx b.cols col row) fun s =>
              { s with is_flagged := !s.is_flagged } } := by
  unfold Board.toggle_flag
  split
  · split
    · exact Or.inl rfl
    · exact Or.inr rfl
  · exact Or.inl rfl

theorem toggle_flag_scalars (b : Board) (col row : Int) :
    (b.toggle_flag col row).cols = b.cols ∧ (b.toggle_flag col row).rows = b.rows
      ∧ (b.toggle_flag col row).num_mines = b.num_mines
      ∧ (b.toggle_flag col row).mines_placed = b.mines_placed
      ∧ (b.toggle_flag col row).revealed_count = b.revealed_count
      ∧ (b.toggle_flag col row).game_over = b.game_over
      ∧ (b.toggle_flag col row).win = b.win := by
  rcases toggle_flag_cases b col row with h | h <;> rw [h] <;>
    exact ⟨rfl, rfl, rfl, rfl, rfl, rfl, rfl⟩

theorem toggle_flag_length (b : Board) (col row : Int) :
    (b.toggle_flag col row).cells.length = b.cells.length := by
  rcases toggle_flag_cases b col row with h | h
  · rw [h]
  · rw [h]
    exact length_modifyState _ _ _

theorem reveal_scalars_placed (b : Board) (col row : Int)
    (shuffle : List (Int × Int) → List (Int × Int))
    (hplaced : b.mines_placed = true) :
    (b.reveal col row shuffle).cols = b.cols
      ∧ (b.reveal col row shuffle).rows = b.rows
      ∧ (b.reveal col row shuffle).num_mines = b.num_mines
      ∧ (b.reveal col row shuffle).mines_placed = true
      ∧ (b.reveal col row shuffle).cells.length = b.cells.length := by
  by_cases hin : b.is_inbounds col row = true
  · by_cases hguard : ((stateAt b.cells (toIdx b.cols col row)).is_flagged
        || (stateAt b.cells (toIdx b.cols col row)).is_revealed) = true
    · rw [reveal_guard b col row shuffle hin hplaced hguard]
      exact ⟨rfl, rfl, rfl, hplaced, rfl⟩
    · simp only [Bool.or_eq_true, not_or, Bool.not_eq_true] at hguard
      by_cases hmine : (stateAt b.cells (toIdx b.cols col row)).is_mine = true
      · rw [reveal_mine b col row shuffle hin hplaced hguard.1 hguard.2 hmine]
        refine ⟨rfl, rfl, rfl, hplaced, ?_⟩
        rw [reveal_all_mines_length]
        exact length_modifyState _ _ _
      · rw [reveal_flood b col row shuffle hin hplaced hguard.1 hguard.2
          (Bool.of_not_eq_true hmine)]
        refine ⟨(check_win_scalars _).1, (check_win_scalars _).2.1, (check_win_scalars _).2.2.1,
          by rw [(check_win_scalars _).2.2.2.1]; exact hplaced, ?_⟩
        rw [check_win_length]
        exact flood_length _ _ _ _ _ _
  · rw [reveal_oob b col row shuffle (Bool.of_not_eq_true hin)]
    exact ⟨rfl, rfl, rfl, hplaced, rfl⟩

theorem reveal_scalars (b : Board) (col row : Int)
    (shuffle : List (Int × Int) → List (Int × Int)) :
    (b.reveal col row shuffle).cols = b.cols
      ∧ (b.reveal col row shuffle).rows = b.rows
      ∧ (b.reveal col row shuffle).num_mines = b.num_mines
      ∧ (b.reveal col row shuffle).cells.length = b.cells.length := by
  by_cases hp : b.mines_placed = true
  · obtain ⟨h1, h2, h3, _, h5⟩ := reveal_scalars_placed b col row shuffle hp
    exact ⟨h1, h2, h3, h5⟩
  · by_cases hin : b.is_inbounds col row = true
    · rw [reveal_unplaced b col row shuffle hin (Bool.of_not_eq_true hp)]
      obtain ⟨h1, h2, h3, _, h5⟩ := reveal_scalars_placed (b.place_mines col row shuffle)
        col row shuffle rfl
      refine ⟨h1, h2, h3, ?_⟩
      rw [h5, place_mines_length]
    · rw [reveal_oob b col row shuffle (Bool.of_not_eq_true hin)]
      exact ⟨rfl, rfl, rfl, rfl⟩

theorem check_win_game_over_true (b : Board) (h : b.game_over = true) :
    b.check_win = b :=
  check_win_neg b fun hc => by
    rw [h] at hc
    exact absurd hc.2 (by decide)

theorem reveal_flags_placed (b : Board) (col row : Int)
    (shuffle : List (Int × Int) → List (Int × Int))
    (hplaced : b.mines_placed = true) :
    (b.game_over = true → (b.reveal col row shuffle).game_over = true)
      ∧ (b.win = true → (b.reveal col row shuffle).win = true)
      ∧ (b.game_over = true → (b.reveal col row shuffle).win = b.win) := by
  by_cases hin : b.is_inbounds col row = true
  · by_cases hguard : ((stateAt b.cells (toIdx b.cols col row)).is_flagged
        || (stateAt b.cells (toIdx b.cols col row)).is_revealed) = true
    · rw [reveal_guard b col row shuffle hin hplaced hguard]
      exact ⟨fun h => h, fun h => h, fun _ => rfl⟩
    · simp only [Bool.or_eq_true, not_or, Bool.not_eq_true] at hguard
      by_cases hmine : (stateAt b.cells (toIdx b.cols col row)).is_mine = true
      · rw [reveal_mine b col row shuffle hin hplaced hguard.1 hguard.2 hmine]
        exact ⟨fun _ => rfl, fun h => h, fun _ => rfl⟩
      · rw [reveal_flood b col row shuffle hin hplaced hguard.1 hguard.2
          (Bool.of_not_eq_true hmine)]
        refine ⟨?_, ?_, ?_⟩
        · intro h
          rw [(check_win_scalars _).2.2.2.2.2]
          exact h
        · intro h
          rw [check_win_win_iff]
          exact Or.inr h
        · intro h
          rw [check_win_game_over_true _ (by exact h)]
  · rw [reveal_oob b col row shuffle (Bool.of_not_eq_true hin)]
    exact ⟨fun h => h, fun h => h, fun _ => rfl⟩

theorem reveal_flags (b : Board) (col row : Int)
    (shuffle : List (Int × Int) → List (Int × Int)) :
    (b.game_over = true → (b.reveal col row shuffle).game_over = true)
      ∧ (b.win = true → (b.reveal col row shuffle).win = true)
      ∧ (b.game_over = true → (b.reveal col row shuffle).win = b.win) := by
  by_cases hp : b.mines_placed = true
  · exact reveal_flags_placed b col row shuffle hp
  · by_cases hin : b.is_inbounds col row = true
    · rw [reveal_unplaced b col row shuffle hin (Bool.of_not_eq_true hp)]
      obtain ⟨h1, h2, h3⟩ := reveal_flags_placed (b.place_mines col row shuffle)
        col row shuffle rfl
      exact ⟨h1, h2, h3⟩
    · rw [reveal_oob b col row shuffle (Bool.of_not_eq_true hin)]
      exact ⟨fun h => h, fun h => h, fun _ => rfl⟩

/-! ## The reachable-state invariant -/

theorem allStates_of_indexed {P : CellState → Prop} (cells : List Cell)
    (h : ∀ i, P (stateAt cells i)) : ∀ cl ∈ cells, P cl.state := by
  intro cl hcl
  obtain ⟨n, hn, hget⟩ := List.mem_iff_getElem.mp hcl
  have : stateAt cells n = cl.state := by
    unfold stateAt
    rw [List.getD_eq_getElem _ _ hn, hget]
  rw [← this]
  exact h n

theorem countP_and_imp {α : Type} (a b : α → Bool) (l : List α)
    (h : (l.countP fun x => a x && b x) = l.countP b) :
    ∀ x ∈ l, b x = true → a x = true := by
  induction l with
  | nil => intro x hx; exact absurd hx (List.not_mem_nil x)
  | cons y ys ih =>
    have hmono : (ys.countP fun x => a x && b x) ≤ ys.countP b :=
      List.countP_mono_left fun x _ hx => (Bool.and_eq_true _ _ ▸ hx).2
    rw [List.countP_cons, List.countP_cons] at h
    have htail : (ys.countP fun x => a x && b x) = ys.countP b := by
      rcases hay : a y with _ | _ <;> rcases hby : b y with _ | _ <;>
        rw [hay, hby] at h <;> simp at h <;> omega
    intro x hx hbx
    rcases List.mem_cons.mp hx with rfl | hmem
    · rcases hax : a x with _ | _
      · rw [hax, hbx] at h
        simp at h
        omega
      · rfl
    · exact ih htail x hmem hbx

theorem countP_reveal_all_mines (p : CellState → Bool)
    (hp : ∀ s, s.is_mine = true → p { s with is_revealed := true } = p s) (b : Board) :
    ((b.reveal_all_mines).cells.countP fun cl => p cl.state)
      = b.cells.countP fun cl => p cl.state := by
  unfold Board.reveal_all_mines
  simp only
  rw [List.countP_map]
  apply List.countP_congr
  intro cl _
  simp only [Function.comp_apply]
  by_cases hm : cl.state.is_mine = true
  · rw [if_pos hm]
    show p { cl.state with is_revealed := true } = true ↔ p cl.state = true
    rw [hp cl.state hm]
  · rw [if_neg hm]

theorem init_cells_eq (cols rows mines : Nat) :
    (Board.init cols rows mines).cells = (all_positions cols rows).map
      fun p => { col := p.1, row := p.2, state := CellState.init } := by
  unfold Board.init all_positions
  simp only
  rw [List.map_flatMap]
  refine congrArg (List.flatMap (List.range rows)) (funext fun r => ?_)
  rw [List.map_map]
  rfl

theorem init_scalars (cols rows mines : Nat) :
    (Board.init cols rows mines).cols = cols ∧ (Board.init cols rows mines).rows = rows
      ∧ (Board.init cols rows mines).num_mines = mines
      ∧ (Board.init cols rows mines).mines_placed = false
      ∧ (Board.init cols rows mines).revealed_count = 0
      ∧ (Board.init cols rows mines).game_over = false
      ∧ (Board.init cols rows mines).win = false :=
  ⟨rfl, rfl, rfl, rfl, rfl, rfl, rfl⟩

theorem init_length (cols rows mines : Nat) :
    (Board.init cols rows mines).cells.length = cols * rows := by
  rw [init_cells_eq, List.length_map, length_all_positions]

theorem init_stateAt (cols rows mines : Nat) (i : Nat) :
    stateAt (Board.init cols rows mines).cells i = CellState.init := by
  rcases Nat.lt_or_ge i (Board.init cols rows mines).cells.length with h | h
  · obtain ⟨cl, hcl, hst⟩ := stateAt_mem _ i h
    rw [hst]
    rw [init_cells_eq] at hcl
    obtain ⟨p, _, hp⟩ := List.mem_map.mp hcl
    rw [← hp]
  · exact stateAt_oob _ i h

theorem inv_init (cols rows mines : Nat) : BoardInv cols rows mines (Board.init cols rows mines) := by
  refine ⟨rfl, rfl, rfl, init_length cols rows mines, ?_, ?_, ?_⟩
  · intro _
    refine ⟨rfl, fun i => ?_⟩
    rw [init_stateAt]
    exact ⟨rfl, rfl⟩
  · intro h
    exact nomatch h
  · have hz : ((Board.init cols rows mines).cells.countP
        fun cl => cl.state.is_revealed && !cl.state.is_mine) = 0 := by
      apply List.countP_eq_zero.mpr
      intro cl hcl
      rw [init_cells_eq] at hcl
      obtain ⟨p, _, hp⟩ := List.mem_map.mp hcl
      rw [← hp]
      exact (by decide : ¬(CellState.init.is_revealed && !CellState.init.is_mine) = true)
    rw [hz]
    rfl

theorem inv_toggle (cols rows mines : Nat) (b : Board) (col row : Int)
    (hinv : BoardInv cols rows mines b) :
    BoardInv cols rows mines (b.toggle_flag col row) := by
  obtain ⟨h1, h2, h3, h4, h5, h6, h7⟩ := hinv
  rcases toggle_flag_cases b col row with hcase | hcase
  · rw [hcase]
    exact ⟨h1, h2, h3, h4, h5, h6, h7⟩
  · rw [hcase]
    refine ⟨h1, h2, h3, ?_, ?_, ?_, ?_⟩
    · rw [length_modifyState]
      exact h4
    · intro hup
      obtain ⟨hrc, hcl⟩ := h5 hup
      refine ⟨hrc, fun i => ?_⟩
      constructor
      · rw [field_modifyState (fun s => s.is_mine)
          (fun s => { s with is_flagged := !s.is_flagged }) (fun _ => rfl)]
        exact (hcl i).1
      · rw [field_modifyState (fun s => s.is_revealed)
          (fun s => { s with is_flagged := !s.is_flagged }) (fun _ => rfl)]
        exact (hcl i).2
    · intro hp
      rw [countP_modifyState_of_preserve (fun s => s.is_mine) b.cells
        (toIdx b.cols col row) (fun s => { s with is_flagged := !s.is_flagged }) rfl]
      exact h6 hp
    · rw [countP_modifyState_of_preserve (fun s => s.is_revealed && !s.is_mine) b.cells
        (toIdx b.cols col row) (fun s => { s with is_flagged := !s.is_flagged }) rfl]
      exact h7

theorem modifyState_comp (cells : List Cell) (i : Nat) (f g : CellState → CellState) :
    modifyState (modifyState cells i f) i g = modifyState cells i fun s => g (f s) := by
  induction cells generalizing i with
  | nil => rfl
  | cons x xs ih =>
    cases i with
    | zero => rfl
    | succ n => simp [modifyState, ih n]

theorem modifyState_id (cells : List Cell) (i : Nat) :
    (modifyState cells i fun s => s) = cells := by
  induction cells generalizing i with
  | nil => rfl
  | cons x xs ih =>
    cases i with
    | zero => rfl
    | succ n => simp [modifyState, ih n]

theorem inv_place (cols rows mines : Nat) (b : Board) (col row : Int)
    (shuffle : List (Int × Int) → List (Int × Int))
    (hperm : (shuffle (b.minePool col row)).Perm (b.minePool col row))
    (hfit : MinesFit cols rows mines)
    (hup : b.mines_placed = false)
    (hinv : BoardInv cols rows mines b) :
    BoardInv cols rows mines (b.place_mines col row shuffle) := by
  obtain ⟨h1, h2, h3, h4, h5, h6, h7⟩ := hinv
  obtain ⟨hrc, hforall⟩ := h5 hup
  have hlen : b.cells.length = b.cols * b.rows := by rw [h1, h2]; exact h4
  have hfresh : ∀ cl ∈ b.cells, cl.state.is_mine = false :=
    @allStates_of_indexed (fun s => s.is_mine = false) b.cells (fun i => (hforall i).1)
  have hfitN : b.num_mines ≤ (b.minePool col row).length := by
    rcases hfit with hf | hf
    · have hge := minePool_length_ge b.cols b.rows col row
      rw [h1, h2] at hge
      show b.num_mines ≤ (minePoolOf b.cols b.rows col row).length
      rw [h3, h1, h2]
      omega
    · show b.num_mines ≤ (minePoolOf b.cols b.rows col row).length
      rw [h3, hf]
      exact Nat.zero_le _
  refine ⟨(place_mines_scalars b col row shuffle).1.trans h1,
    (place_mines_scalars b col row shuffle).2.1.trans h2,
    (place_mines_scalars b col row shuffle).2.2.1.trans h3,
    (place_mines_length b col row shuffle).trans h4, ?_, ?_, ?_⟩
  · intro h
    rw [place_mines_mines_placed] at h
    exact nomatch h
  · intro _
    rw [place_mines_count b col row shuffle hlen hfresh hperm hfitN]
    exact h3
  · have hz : ((b.place_mines col row shuffle).cells.countP
        fun cl => cl.state.is_revealed && !cl.state.is_mine) = 0 := by
      apply List.countP_eq_zero.mpr
      refine @allStates_of_indexed
        (fun s => ¬(s.is_revealed && !s.is_mine) = true)
        (b.place_mines col row shuffle).cells (fun i => ?_)
      intro hcontra
      have hr := ((Bool.and_eq_true _ _).mp hcontra).1
      rw [place_mines_rev_eq b col row shuffle i, (hforall i).2] at hr
      exact nomatch hr
    rw [hz, (place_mines_scalars b col row shuffle).2.2.2.1]
    exact hrc

theorem FloodReach_inb (cols rows : Nat) (cells0 : List Cell) (stack : List (Int × Int))
    (hstack : ∀ p ∈ stack, inb cols rows p.1 p.2 = true) :
    ∀ q : Int × Int, FloodReach cols rows cells0 stack q → inb cols rows q.1 q.2 = true := by
  intro q hq
  induction hq with
  | base hp => exact hstack _ hp
  | step _ _ _ _ hn _ _ => exact neighborsOf_inb hn

theorem flood_complete (cols rows fuel : Nat) (cells : List Cell) (count : Nat)
    (stack : List (Int × Int))
    (hlen : cells.length = cols * rows)
    (hstack : ∀ p ∈ stack, inb cols rows p.1 p.2 = true)
    (hfuel : 9 * (cells.countP fun cl => !cl.state.is_revealed) + stack.length < fuel) :
    ∀ q : Int × Int, FloodReach cols rows cells stack q →
      (stateAt cells (toIdx cols q.1 q.2)).is_flagged = false →
      (stateAt (flood cols rows fuel cells count stack).1 (toIdx cols q.1 q.2)).is_revealed
        = true := by
  intro q hq
  induction hq with
  | base hp =>
    exact fun hf => flood_covers cols rows fuel cells count stack hlen hstack hfuel _ hp hf
  | @step pp qq hr hflag hrevp hadj hn hm ih =>
    intro hfq
    have hp_rev := ih hflag
    have hppin : inb cols rows pp.1 pp.2 = true :=
      FloodReach_inb cols rows cells stack hstack pp hr
    have hclosed := flood_closed cols rows fuel cells cells count stack hlen hstack hfuel
      (fun _ => rfl) (fun _ => rfl) (fun _ => rfl) (fun _ h => h) pp hppin hp_rev
    rcases hclosed with hbefore | hstep
    · rw [hrevp] at hbefore
      exact nomatch hbefore
    · exact hstep hadj qq hn hm hfq

theorem countP_winmap (p : CellState → Bool)
    (hp : ∀ s, s.is_revealed = false → s.is_mine = false → p { s with is_revealed := true } = p s)
    (cells : List Cell) :
    ((cells.map fun cl =>
        if !cl.state.is_revealed && !cl.state.is_mine then
          { cl with state := { cl.state with is_revealed := true } }
        else cl).countP fun cl => p cl.state)
      = cells.countP fun cl => p cl.state := by
  rw [List.countP_map]
  apply List.countP_congr
  intro cl _
  simp only [Function.comp_apply]
  by_cases hc : (!cl.state.is_revealed && !cl.state.is_mine) = true
  · rw [if_pos hc]
    obtain ⟨hr, hm⟩ := (Bool.and_eq_true _ _).mp hc
    rw [Bool.not_eq_true'] at hr hm
    show p { cl.state with is_revealed := true } = true ↔ p cl.state = true
    rw [hp cl.state hr hm]
  · rw [if_neg hc]

theorem countP_winmap_rev (cells : List Cell) :
    ((cells.map fun cl =>
        if !cl.state.is_revealed && !cl.state.is_mine then
          { cl with state := { cl.state with is_revealed := true } }
        else cl).countP fun cl => cl.state.is_revealed && !cl.state.is_mine)
      = cells.countP fun cl => !cl.state.is_mine := by
  rw [List.countP_map]
  apply List.countP_congr
  intro cl _
  simp only [Function.comp_apply]
  by_cases hr : cl.state.is_revealed = true
  · by_cases hm : cl.state.is_mine = true
    · simp [hr, hm]
    · rw [Bool.not_eq_true] at hm
      simp [hr, hm]
  · rw [Bool.not_eq_true] at hr
    by_cases hm : cl.state.is_mine = true
    · simp [hr, hm]
    · rw [Bool.not_eq_true] at hm
      simp [hr, hm]

theorem countP_bool_split {α : Type} (p : α → Bool) (l : List α) :
    l.countP p + l.countP (fun a => !p a) = l.length := by
  induction l with
  | nil => rfl
  | cons x xs ih =>
    rw [List.countP_cons, List.countP_cons]
    by_cases h : p x = true
    · simp [h]
      omega
    · rw [Bool.not_eq_true] at h
      simp [h]
      omega

theorem inv_reveal_placed (cols rows mines : Nat) (b : Board) (col row : Int)
    (shuffle : List (Int × Int) → List (Int × Int))
    (hplaced : b.mines_placed = true)
    (hinv : BoardInv cols rows mines b) :
    BoardInv cols rows mines (b.reveal col row shuffle) := by
  obtain ⟨h1, h2, h3, h4, h5, h6, h7⟩ := hinv
  by_cases hin : b.is_inbounds col row = true
  case neg =>
    rw [reveal_oob b col row shuffle (Bool.of_not_eq_true hin)]
    exact ⟨h1, h2, h3, h4, h5, h6, h7⟩
  case pos =>
  by_cases hguard : ((stateAt b.cells (toIdx b.cols col row)).is_flagged
      || (stateAt b.cells (toIdx b.cols col row)).is_revealed) = true
  · rw [reveal_guard b col row shuffle hin hplaced hguard]
    exact ⟨h1, h2, h3, h4, h5, h6, h7⟩
  · simp only [Bool.or_eq_true, not_or, Bool.not_eq_true] at hguard
    obtain ⟨hflag, hrev⟩ := hguard
    by_cases hmine : (stateAt b.cells (toIdx b.cols col row)).is_mine = true
    · rw [reveal_mine b col row shuffle hin hplaced hflag hrev hmine]
      refine ⟨h1, h2, h3, ?_, ?_, ?_, ?_⟩
      · rw [reveal_all_mines_length]
        show (modifyState b.cells (toIdx b.cols col row)
          fun s => { s with is_revealed := true }).length = cols * rows
        rw [length_modifyState]
        exact h4
      · intro h
        exact nomatch hplaced.symm.trans h
      · intro _
        have e1 := countP_reveal_all_mines (fun s => s.is_mine) (fun _ _ => rfl)
          { b with
            cells := modifyState b.cells (toIdx b.cols col row)
              fun s => { s with is_revealed := true }
            game_over := true }
        have e2 := countP_modifyState_of_preserve (fun s => s.is_mine) b.cells
          (toIdx b.cols col row) (fun s => { s with is_revealed := true }) rfl
        exact (e1.trans e2).trans (h6 hplaced)
      · have e1 := countP_reveal_all_mines (fun s => s.is_revealed && !s.is_mine)
          (fun s hs => by simp [hs])
          { b with
            cells := modifyState b.cells (toIdx b.cols col row)
              fun s => { s with is_revealed := true }
            game_over := true }
        have e2 := countP_modifyState_of_preserve (fun s => s.is_revealed && !s.is_mine)
          b.cells (toIdx b.cols col row) (fun s => { s with is_revealed := true })
          (by simp [hmine])
        exact h7.trans (e1.trans e2).symm
    · rw [reveal_flood b col row shuffle hin hplaced hflag hrev (Bool.of_not_eq_true hmine)]
      have hmine' : (stateAt b.cells (toIdx b.cols col row)).is_mine = false :=
        Bool.of_not_eq_true hmine
      set fr := flood b.cols b.rows (floodFuel b.cells) b.cells b.revealed_count
        [(col, row)] with hfr
      have hstack1 : ∀ p ∈ [((col : Int), (row : Int))],
          (stateAt b.cells (toIdx b.cols p.1 p.2)).is_mine = false := by
        intro p hp
        rw [List.mem_singleton] at hp
        subst hp
        exact hmine'
      have hcnm : fr.2 + (b.cells.countP fun cl => cl.state.is_revealed && !cl.state.is_mine)
          = b.revealed_count
            + (fr.1.countP fun cl => cl.state.is_revealed && !cl.state.is_mine) := by
        rw [hfr]
        exact flood_count_nonmine b.cols b.rows (floodFuel b.cells) b.cells
          b.revealed_count [(col, row)] hstack1
      have hlen1 : fr.1.length = b.cells.length := by
        rw [hfr]
        exact flood_length _ _ _ _ _ _
      have hrevcnt : fr.2 = fr.1.countP fun cl => cl.state.is_revealed && !cl.state.is_mine := by
        rw [h7] at hcnm
        omega
      have hminecnt : (fr.1.countP fun cl => cl.state.is_mine)
          = b.cells.countP fun cl => cl.state.is_mine :=
        countP_state_congr (fun s => s.is_mine) _ _ hlen1
          (fun i => by
            rw [hfr]
            exact flood_field (fun s => s.is_mine) (fun _ => rfl) _ _ _ _ _ _ i)
      by_cases hwc : (fr.2 : Int) = (b.cols : Int) * (b.rows : Int) - (b.num_mines : Int)
          ∧ b.game_over = false
      case neg =>
        rw [check_win_neg { b with cells := fr.1, revealed_count := fr.2 } (by exact hwc)]
        refine ⟨h1, h2, h3, ?_, ?_, ?_, ?_⟩
        · show fr.1.length = cols * rows
          rw [hlen1]
          exact h4
        · intro h
          exact nomatch hplaced.symm.trans h
        · intro _
          show (fr.1.countP fun cl => cl.state.is_mine) = mines
          rw [hminecnt]
          exact h6 hplaced
        · exact hrevcnt
      case pos =>
        rw [check_win_pos { b with cells := fr.1, revealed_count := fr.2 } (by exact hwc)]
        have hmle : mines ≤ cols * rows := by
          have hle : (b.cells.countP fun cl => cl.state.is_mine) ≤ b.cells.length :=
            List.countP_le_length _
          rw [h6 hplaced, h4] at hle
          exact hle
        have hcast : (b.cols : Int) * (b.rows : Int) = ((cols * rows : Nat) : Int) := by
          rw [h1, h2]
          push_cast
          ring
        have hfr2 : fr.2 = cols * rows - mines := by
          have hw := hwc.1
          rw [hcast, h3] at hw
          omega
        refine ⟨h1, h2, h3, ?_, ?_, ?_, ?_⟩
        · show (fr.1.map fun cl =>
              if !cl.state.is_revealed && !cl.state.is_mine then
                { cl with state := { cl.state with is_revealed := true } }
              else cl).length = cols * rows
          rw [List.length_map, hlen1]
          exact h4
        · intro h
          exact nomatch hplaced.symm.trans h
        · intro _
          show ((fr.1.map fun cl =>
              if !cl.state.is_revealed && !cl.state.is_mine then
                { cl with state := { cl.state with is_revealed := true } }
              else cl).countP fun cl => cl.state.is_mine) = mines
          rw [countP_winmap (fun s => s.is_mine) (fun _ _ _ => rfl) fr.1, hminecnt]
          exact h6 hplaced
        · show fr.2 = (fr.1.map fun cl =>
              if !cl.state.is_revealed && !cl.state.is_mine then
                { cl with state := { cl.state with is_revealed := true } }
              else cl).countP fun cl => cl.state.is_revealed && !cl.state.is_mine
          rw [countP_winmap_rev fr.1, hfr2]
          have hval : (fr.1.countP fun cl => !cl.state.is_mine) = cols * rows - mines := by
            have hlenf : fr.1.length = cols * rows := by
              rw [hlen1]
              exact h4
            have hs2 : mines + (fr.1.countP fun cl => !cl.state.is_mine) = cols * rows := by
              calc mines + (fr.1.countP fun cl => !cl.state.is_mine)
                  = (fr.1.countP fun cl => cl.state.is_mine)
                    + (fr.1.countP fun cl => !cl.state.is_mine) := by
                      rw [hminecnt, h6 hplaced]
                _ = fr.1.length := countP_bool_split _ fr.1
                _ = cols * rows := hlenf
            omega
          exact hval.symm

theorem inv_reveal (cols rows mines : Nat) (b : Board) (col row : Int)
    (shuffle : List (Int × Int) → List (Int × Int))
    (hperm : (shuffle (b.minePool col row)).Perm (b.minePool col row))
    (hfit : MinesFit cols rows mines)
    (hinv : BoardInv cols rows mines b) :
    BoardInv cols rows mines (b.reveal col row shuffle) := by
  by_cases hplaced : b.mines_placed = true
  · exact inv_reveal_placed cols rows mines b col row shuffle hplaced hinv
  · by_cases hin : b.is_inbounds col row = true
    · rw [reveal_unplaced b col row shuffle hin (Bool.of_not_eq_true hplaced)]
      exact inv_reveal_placed cols rows mines _ col row shuffle rfl
        (inv_place cols rows mines b col row shuffle hperm hfit
          (Bool.of_not_eq_true hplaced) hinv)
    · rw [reveal_oob b col row shuffle (Bool.of_not_eq_true hin)]
      exact hinv

theorem inv_reachable (cols rows mines : Nat) (b : Board)
    (hfit : MinesFit cols rows mines) (hr : Reachable cols rows mines b) :
    BoardInv cols rows mines b := by
  induction hr with
  | init => exact inv_init cols rows mines
  | step_reveal col row shuffle _ hperm ih =>
    exact inv_reveal cols rows mines _ col row shuffle hperm hfit ih
  | step_flag col row _ ih => exact inv_toggle cols rows mines _ col row ih

theorem reachable_dims (cols rows mines : Nat) (b : Board)
    (hr : Reachable cols rows mines b) :
    b.cols = cols ∧ b.rows = rows ∧ b.num_mines = mines ∧ b.cells.length = cols * rows := by
  induction hr with
  | init => exact ⟨rfl, rfl, rfl, init_length cols rows mines⟩
  | step_reveal col row shuffle _ _ ih =>
    obtain ⟨e1, e2, e3, e4⟩ := ih
    obtain ⟨f1, f2, f3, f4⟩ := reveal_scalars _ col row shuffle
    exact ⟨f1.trans e1, f2.trans e2, f3.trans e3, f4.trans e4⟩
  | step_flag col row _ ih =>
    obtain ⟨e1, e2, e3, e4⟩ := ih
    obtain ⟨f1, f2, f3, _⟩ := toggle_flag_scalars _ col row
    exact ⟨f1.trans e1, f2.trans e2, f3.trans e3, (toggle_flag_length _ col row).trans e4⟩

/-! ## The claims -/

/-- C1: for every board whose cell array matches its dimensions and is still
mine-free, and every safe origin whose candidate pool can accommodate
`num_mines`, `place_mines(safe_col, safe_row)` leaves exactly `num_mines`
mine cells, keeps the origin and all its in-bounds neighbours mine-free,
stores in every non-mine cell's `adjacent` the exact number of its in-bounds
mine neighbours, and sets `mines_placed`. -/
theorem claim_C1 (b : Board) (sc sr : Int)
    (shuffle : List (Int × Int) → List (Int × Int))
    (hlen : b.cells.length = b.cols * b.rows)
    (hfresh : ∀ cl ∈ b.cells, cl.state.is_mine = false)
    (hperm : (shuffle (b.minePool sc sr)).Perm (b.minePool sc sr))
    (hfit : b.num_mines ≤ (b.minePool sc sr).length) :
    (b.place_mines sc sr shuffle).mines_placed = true
    ∧ ((b.place_mines sc sr shuffle).cells.countP fun cl => cl.state.is_mine) = b.num_mines
    ∧ (∀ q ∈ forbiddenList b.cols b.rows sc sr, inb b.cols b.rows q.1 q.2 = true →
        (stateAt (b.place_mines sc sr shuffle).cells (toIdx b.cols q.1 q.2)).is_mine = false)
    ∧ ∀ q : Int × Int, inb b.cols b.rows q.1 q.2 = true →
        (stateAt (b.place_mines sc sr shuffle).cells (toIdx b.cols q.1 q.2)).is_mine = false →
        (stateAt (b.place_mines sc sr shuffle).cells (toIdx b.cols q.1 q.2)).adjacent
          = (neighborsOf b.cols b.rows q.1 q.2).countP fun n =>
              (stateAt (b.place_mines sc sr shuffle).cells (toIdx b.cols n.1 n.2)).is_mine :=
  ⟨place_mines_mines_placed b sc sr shuffle,
   place_mines_count b sc sr shuffle hlen hfresh hperm hfit,
   place_mines_safe b sc sr shuffle hlen hfresh hperm,
   place_mines_adjacent b sc sr shuffle hlen hperm⟩

theorem claim_C1_witness :
    (Board.init 4 4 2).cells.length = (Board.init 4 4 2).cols * (Board.init 4 4 2).rows
    ∧ (∀ cl ∈ (Board.init 4 4 2).cells, cl.state.is_mine = false)
    ∧ (id ((Board.init 4 4 2).minePool 0 0)).Perm ((Board.init 4 4 2).minePool 0 0)
    ∧ (Board.init 4 4 2).num_mines ≤ ((Board.init 4 4 2).minePool 0 0).length
    ∧ (((Board.init 4 4 2).place_mines 0 0 id).mines_placed = true
      ∧ (((Board.init 4 4 2).place_mines 0 0 id).cells.countP
          fun cl => cl.state.is_mine) = (Board.init 4 4 2).num_mines
      ∧ (∀ q ∈ forbiddenList (Board.init 4 4 2).cols (Board.init 4 4 2).rows 0 0,
          inb (Board.init 4 4 2).cols (Board.init 4 4 2).rows q.1 q.2 = true →
          (stateAt ((Board.init 4 4 2).place_mines 0 0 id).cells
            (toIdx (Board.init 4 4 2).cols q.1 q.2)).is_mine = false)
      ∧ ∀ q : Int × Int, inb (Board.init 4 4 2).cols (Board.init 4 4 2).rows q.1 q.2 = true →
          (stateAt ((Board.init 4 4 2).place_mines 0 0 id).cells
            (toIdx (Board.init 4 4 2).cols q.1 q.2)).is_mine = false →
          (stateAt ((Board.init 4 4 2).place_mines 0 0 id).cells
            (toIdx (Board.init 4 4 2).cols q.1 q.2)).adjacent
            = (neighborsOf (Board.init 4 4 2).cols (Board.init 4 4 2).rows q.1 q.2).countP
                fun n => (stateAt ((Board.init 4 4 2).place_mines 0 0 id).cells
                  (toIdx (Board.init 4 4 2).cols n.1 n.2)).is_mine) :=
  ⟨by decide, by decide, List.Perm.refl _, by decide,
   claim_C1 (Board.init 4 4 2) 0 0 id (by decide) (by decide) (List.Perm.refl _) (by decide)⟩

/-- C2 (amended): on an invariant-satisfying board with mines placed,
revealing an in-bounds, unflagged, unrevealed, non-mine cell marks revealed
exactly the cells that were already revealed together with the unflagged
cells of the flood region of the click — the region grown from the clicked
cell through zero-adjacency, unflagged, not-yet-revealed cells to their
non-mine neighbours.  (The spec's unqualified "entire connected
zero-adjacency region plus numbered border" is refuted by the flagged-cell
counterexample.) -/
theorem claim_C2 (cols rows mines : Nat) (b : Board) (col row : Int)
    (shuffle : List (Int × Int) → List (Int × Int))
    (hinv : BoardInv cols rows mines b)
    (hplaced : b.mines_placed = true)
    (hin : b.is_inbounds col row = true)
    (hflag : (stateAt b.cells (toIdx b.cols col row)).is_flagged = false)
    (hrev : (stateAt b.cells (toIdx b.cols col row)).is_revealed = false)
    (hmine : (stateAt b.cells (toIdx b.cols col row)).is_mine = false) :
    ∀ q : Int × Int, inb b.cols b.rows q.1 q.2 = true →
      ((stateAt (b.reveal col row shuffle).cells (toIdx b.cols q.1 q.2)).is_revealed = true
        ↔ ((stateAt b.cells (toIdx b.cols q.1 q.2)).is_revealed = true
            ∨ (RevealRegion b col row q
                ∧ (stateAt b.cells (toIdx b.cols q.1 q.2)).is_flagged = false))) := by
  obtain ⟨h1, h2, h3, h4, h5, h6, h7⟩ := hinv
  have hlenb : b.cells.length = b.cols * b.rows := by
    rw [h1, h2]
    exact h4
  have hstackin : ∀ p ∈ [((col : Int), (row : Int))], inb b.cols b.rows p.1 p.2 = true := by
    intro p hp
    rw [List.mem_singleton] at hp
    subst hp
    exact hin
  have hfuel : 9 * (b.cells.countP fun cl => !cl.state.is_revealed)
      + ([((col : Int), (row : Int))] : List (Int × Int)).length < floodFuel b.cells := by
    have hc : (b.cells.countP fun cl => !cl.state.is_revealed) ≤ b.cells.length :=
      List.countP_le_length _
    unfold floodFuel
    simp only [List.length_cons, List.length_nil]
    omega
  rw [reveal_flood b col row shuffle hin hplaced hflag hrev hmine]
  set fr := flood b.cols b.rows (floodFuel b.cells) b.cells b.revealed_count
    [(col, row)] with hfr
  have hstack1 : ∀ p ∈ [((col : Int), (row : Int))],
      (stateAt b.cells (toIdx b.cols p.1 p.2)).is_mine = false := by
    intro p hp
    rw [List.mem_singleton] at hp
    subst hp
    exact hmine
  have hcnm : fr.2 + (b.cells.countP fun cl => cl.state.is_revealed && !cl.state.is_mine)
      = b.revealed_count
        + (fr.1.countP fun cl => cl.state.is_revealed && !cl.state.is_mine) := by
    rw [hfr]
    exact flood_count_nonmine b.cols b.rows (floodFuel b.cells) b.cells
      b.revealed_count [(col, row)] hstack1
  have hlen1 : fr.1.length = b.cells.length := by
    rw [hfr]
    exact flood_length _ _ _ _ _ _
  have hrevcnt : fr.2 = fr.1.countP fun cl => cl.state.is_revealed && !cl.state.is_mine := by
    rw [h7] at hcnm
    omega
  have hminecnt : (fr.1.countP fun cl => cl.state.is_mine)
      = b.cells.countP fun cl => cl.state.is_mine :=
    countP_state_congr (fun s => s.is_mine) _ _ hlen1
      (fun i => by
        rw [hfr]
        exact flood_field (fun s => s.is_mine) (fun _ => rfl) _ _ _ _ _ _ i)
  have hcells : (Board.check_win { b with cells := fr.1, revealed_count := fr.2 }).cells
      = fr.1 := by
    by_cases hwc : (fr.2 : Int) = (b.cols : Int) * (b.rows : Int) - (b.num_mines : Int)
        ∧ b.game_over = false
    · rw [check_win_pos { b with cells := fr.1, revealed_count := fr.2 } (by exact hwc)]
      have hmle : mines ≤ cols * rows := by
        have hle : (b.cells.countP fun cl => cl.state.is_mine) ≤ b.cells.length :=
          List.countP_le_length _
        rw [h6 hplaced, h4] at hle
        exact hle
      have hcast : (b.cols : Int) * (b.rows : Int) = ((cols * rows : Nat) : Int) := by
        rw [h1, h2]
        push_cast
        ring
      have hfr2 : fr.2 = cols * rows - mines := by
        have hw := hwc.1
        rw [hcast, h3] at hw
        omega
      have hval : (fr.1.countP fun cl => !cl.state.is_mine) = cols * rows - mines := by
        have hlenf : fr.1.length = cols * rows := by
          rw [hlen1]
          exact h4
        have hs2 : mines + (fr.1.countP fun cl => !cl.state.is_mine) = cols * rows := by
          calc mines + (fr.1.countP fun cl => !cl.state.is_mine)
              = (fr.1.countP fun cl => cl.state.is_mine)
                + (fr.1.countP fun cl => !cl.state.is_mine) := by
                  rw [hminecnt, h6 hplaced]
            _ = fr.1.length := countP_bool_split _ fr.1
            _ = cols * rows := hlenf
        omega
      have hcnt_eq : (fr.1.countP fun cl => cl.state.is_revealed && !cl.state.is_mine)
          = fr.1.countP fun cl => !cl.state.is_mine := by
        rw [← hrevcnt, hfr2, hval]
      have himp := countP_and_imp (fun cl : Cell => cl.state.is_revealed)
        (fun cl : Cell => !cl.state.is_mine) fr.1 hcnt_eq
      have hall : ∀ cl ∈ ({ b with cells := fr.1, revealed_count := fr.2 } : Board).cells,
          (!cl.state.is_revealed && !cl.state.is_mine) = false := by
        intro cl hcl
        by_cases hm : cl.state.is_mine = true
        · simp [hm]
        · rw [Bool.not_eq_true] at hm
          have hrevcl := himp cl hcl (by show (!cl.state.is_mine) = true; rw [hm]; rfl)
          have hrevcl' : cl.state.is_revealed = true := hrevcl
          simp [hrevcl']
      exact check_win_all_revealed { b with cells := fr.1, revealed_count := fr.2 } hall
    · rw [check_win_neg { b with cells := fr.1, revealed_count := fr.2 } (by exact hwc)]
  intro q hq
  rw [hcells]
  constructor
  · intro hqrev
    have hs := flood_sound b.cols b.rows (floodFuel b.cells) b.cells b.cells
      b.revealed_count [(col, row)] hstackin (fun _ => rfl) (fun _ => rfl) (fun _ => rfl)
      (fun _ h => h) q hq (by rw [hfr] at hqrev; exact hqrev)
    exact hs
  · rintro (hbefore | ⟨hreg, hfq⟩)
    · rw [hfr]
      exact flood_rev_mono b.cols b.rows (floodFuel b.cells) b.cells b.revealed_count
        [(col, row)] _ hbefore
    · rw [hfr]
      exact flood_complete b.cols b.rows (floodFuel b.cells) b.cells b.revealed_count
        [(col, row)] hlenb hstackin hfuel q hreg hfq

theorem wBoardC2_inv : BoardInv 3 1 0 wBoardC2 := by
  refine ⟨rfl, rfl, rfl, by decide, ?_, ?_, by decide⟩
  · intro h
    exact nomatch h
  · intro _
    decide

theorem claim_C2_witness :
    BoardInv 3 1 0 wBoardC2
    ∧ wBoardC2.mines_placed = true
    ∧ wBoardC2.is_inbounds 2 0 = true
    ∧ (stateAt wBoardC2.cells (toIdx wBoardC2.cols 2 0)).is_flagged = false
    ∧ (stateAt wBoardC2.cells (toIdx wBoardC2.cols 2 0)).is_revealed = false
    ∧ (stateAt wBoardC2.cells (toIdx wBoardC2.cols 2 0)).is_mine = false
    ∧ ∀ q : Int × Int, inb wBoardC2.cols wBoardC2.rows q.1 q.2 = true →
        ((stateAt (wBoardC2.reveal 2 0 id).cells
            (toIdx wBoardC2.cols q.1 q.2)).is_revealed = true
          ↔ ((stateAt wBoardC2.cells (toIdx wBoardC2.cols q.1 q.2)).is_revealed = true
              ∨ (RevealRegion wBoardC2 2 0 q
                  ∧ (stateAt wBoardC2.cells
                      (toIdx wBoardC2.cols q.1 q.2)).is_flagged = false))) :=
  ⟨wBoardC2_inv,
   rfl, by decide, by decide, by decide, by decide,
   claim_C2 3 1 0 wBoardC2 2 0 id wBoardC2_inv
     rfl (by decide) (by decide) (by decide) (by decide)⟩

/-- C2 counterexample: in the reachable position `ceBoardC2b`, the clicked
cell (5,0) is in-bounds, unflagged, unrevealed, non-mine and has zero
adjacency; the cell (7,0) lies in the spec's connected zero-adjacency
region of (5,0) and is neither a mine nor flagged, yet `reveal 5 0` leaves
it unrevealed, because the flood fill stops at the flagged cell (6,0). -/
theorem claim_C2_counterexample :
    ceBoardC2b.mines_placed = true
    ∧ ceBoardC2b.is_inbounds 5 0 = true
    ∧ (stateAt ceBoardC2b.cells (toIdx ceBoardC2b.cols 5 0)).is_flagged = false
    ∧ (stateAt ceBoardC2b.cells (toIdx ceBoardC2b.cols 5 0)).is_revealed = false
    ∧ (stateAt ceBoardC2b.cells (toIdx ceBoardC2b.cols 5 0)).is_mine = false
    ∧ (stateAt ceBoardC2b.cells (toIdx ceBoardC2b.cols 5 0)).adjacent = 0
    ∧ SpecZeroRegion ceBoardC2b.cols ceBoardC2b.rows ceBoardC2b.cells (5, 0) (7, 0)
    ∧ (stateAt ceBoardC2b.cells (toIdx ceBoardC2b.cols 7 0)).is_mine = false
    ∧ (stateAt ceBoardC2b.cells (toIdx ceBoardC2b.cols 7 0)).is_flagged = false
    ∧ ceBoardC2c = ceBoardC2b.reveal 5 0 id
    ∧ (stateAt ceBoardC2c.cells (toIdx ceBoardC2b.cols 7 0)).is_revealed = false :=
  ⟨by decide, by decide, by decide, by decide, by decide, by decide,
   @SpecZeroRegion.step _ _ _ _ ((6 : Int), (0 : Int)) ((7 : Int), (0 : Int))
     (@SpecZeroRegion.step _ _ _ _ ((5 : Int), (0 : Int)) ((6 : Int), (0 : Int))
       SpecZeroRegion.refl (by decide) (by decide) (by decide) (by decide))
     (by decide) (by decide) (by decide) (by decide),
   by decide, by decide, rfl, by decide⟩

/-- C3 (amended): in every state reachable from a fresh board of a valid
configuration by reveal and toggle_flag calls, `revealed_count` equals the
number of revealed NON-MINE cells.  The spec's "number of cells with
is_revealed = true" fails once a mine has been revealed: neither the losing
click, nor `_reveal_all_mines`, nor `_check_win`'s defensive reveals touch
the counter (see the counterexample). -/
theorem claim_C3 (cols rows mines : Nat) (b : Board)
    (hfit : MinesFit cols rows mines)
    (hr : Reachable cols rows mines b) :
    b.revealed_count
      = b.cells.countP fun cl => cl.state.is_revealed && !cl.state.is_mine :=
  (inv_reachable cols rows mines b hfit hr).2.2.2.2.2.2

theorem claim_C3_witness :
    MinesFit 4 4 0 ∧ Reachable 4 4 0 ((Board.init 4 4 0).reveal 0 0 id)
    ∧ ((Board.init 4 4 0).reveal 0 0 id).revealed_count
        = ((Board.init 4 4 0).reveal 0 0 id).cells.countP
            fun cl => cl.state.is_revealed && !cl.state.is_mine :=
  ⟨Or.inr rfl,
   Reachable.step_reveal 0 0 id Reachable.init (List.Perm.refl _),
   claim_C3 4 4 0 _ (Or.inr rfl)
     (Reachable.step_reveal 0 0 id Reachable.init (List.Perm.refl _))⟩

/-- C3 counterexample: `ceBoardC3b` is reachable from `Board(5, 1, 1)` by
two reveals (the second hits the mine), and there `revealed_count = 3`
while four cells have `is_revealed = true`. -/
theorem claim_C3_counterexample :
    Reachable 5 1 1 ceBoardC3b
    ∧ ¬(ceBoardC3b.revealed_count
        = ceBoardC3b.cells.countP fun cl => cl.state.is_revealed) :=
  ⟨Reachable.step_reveal 3 0 id
     (Reachable.step_reveal 0 0 (fun _ => [(3, 0), (2, 0), (4, 0)]) Reachable.init
       (by decide))
     (List.Perm.refl _),
   by decide⟩

/-- C4 (amended): `game_over` and `win` are individually persistent — no
`reveal` or `toggle_flag` ever resets either from true to false.  Their
mutual exclusion, however, is false: revealing a mine on an already-won
board sets `game_over` while `win` stays true (see the counterexample). -/
theorem claim_C4 (b : Board) (col row : Int)
    (shuffle : List (Int × Int) → List (Int × Int)) :
    (b.game_over = true → (b.reveal col row shuffle).game_over = true
      ∧ (b.toggle_flag col row).game_over = true)
    ∧ (b.win = true → (b.reveal col row shuffle).win = true
      ∧ (b.toggle_flag col row).win = true) := by
  obtain ⟨hg, hw, _⟩ := reveal_flags b col row shuffle
  refine ⟨fun h => ⟨hg h, ?_⟩, fun h => ⟨hw h, ?_⟩⟩
  · rw [(toggle_flag_scalars b col row).2.2.2.2.2.1]
    exact h
  · rw [(toggle_flag_scalars b col row).2.2.2.2.2.2]
    exact h

theorem claim_C4_witness :
    (wBoardC4.game_over = true ∧ (wBoardC4.reveal 0 0 id).game_over = true
      ∧ (wBoardC4.toggle_flag 0 0).game_over = true)
    ∧ (wBoardC4w.win = true ∧ (wBoardC4w.reveal 0 0 id).win = true
      ∧ (wBoardC4w.toggle_flag 0 0).win = true) :=
  ⟨⟨rfl, ((claim_C4 wBoardC4 0 0 id).1 rfl).1, ((claim_C4 wBoardC4 0 0 id).1 rfl).2⟩,
   ⟨rfl, ((claim_C4 wBoardC4w 0 0 id).2 rfl).1, ((claim_C4 wBoardC4w 0 0 id).2 rfl).2⟩⟩

/-- C4 counterexample: `ceBoardC4b` is reachable from `Board(4, 1, 1)` —
the first click wins, the second reveals the mine — and ends with
`game_over` and `win` both true. -/
theorem claim_C4_counterexample :
    Reachable 4 1 1 ceBoardC4b
    ∧ ceBoardC4b.game_over = true ∧ ceBoardC4b.win = true :=
  ⟨Reachable.step_reveal 3 0 id
     (Reachable.step_reveal 0 0 (fun _ => [(3, 0), (2, 0)]) Reachable.init (by decide))
     (List.Perm.refl _),
   by decide, by decide⟩

/-- C5 (corrected): `Board.__init__` performs no parameter validation at
all — every construction succeeds and stores the arguments verbatim, even
for configurations the spec says must fail with a configuration error
(see the counterexample). -/
theorem claim_C5 (cols rows mines : Nat) :
    (Board.init cols rows mines).cols = cols
    ∧ (Board.init cols rows mines).rows = rows
    ∧ (Board.init cols rows mines).num_mines = mines
    ∧ (Board.init cols rows mines).cells.length = cols * rows
    ∧ (Board.init cols rows mines).mines_placed = false :=
  ⟨rfl, rfl, rfl, init_length cols rows mines, rfl⟩

/-- C5 counterexample: the configuration (3, 3, 1) violates the spec's
bound `mine_count <= cols*rows - 9`, yet construction succeeds and yields
a full 9-cell board with `num_mines = 1`. -/
theorem claim_C5_counterexample :
    ¬SpecConfigOk 3 3 1
    ∧ (Board.init 3 3 1).num_mines = 1
    ∧ (Board.init 3 3 1).cells.length = 9 :=
  ⟨fun h => absurd h.2.2 (by decide), rfl, by decide⟩

/-- C6: `flagged_count` (modelled from the spec — the Python body is an
unimplemented TODO stub) returns the number of cells with
`is_flagged = true`, and in every reachable state that number is at most
`cols * rows`. -/
theorem claim_C6 (cols rows mines : Nat) (b : Board)
    (hr : Reachable cols rows mines b) :
    b.flagged_count = (b.cells.countP fun cl => cl.state.is_flagged)
    ∧ b.flagged_count ≤ cols * rows := by
  refine ⟨rfl, ?_⟩
  have hle : (b.cells.countP fun cl => cl.state.is_flagged) ≤ b.cells.length :=
    List.countP_le_length _
  rw [(reachable_dims cols rows mines b hr).2.2.2] at hle
  exact hle

theorem claim_C6_witness :
    Reachable 2 3 1 ((Board.init 2 3 1).toggle_flag 0 0)
    ∧ ((Board.init 2 3 1).toggle_flag 0 0).flagged_count
        = (((Board.init 2 3 1).toggle_flag 0 0).cells.countP fun cl => cl.state.is_flagged)
    ∧ ((Board.init 2 3 1).toggle_flag 0 0).flagged_count ≤ 2 * 3 :=
  ⟨Reachable.step_flag 0 0 Reachable.init,
   (claim_C6 2 3 1 _ (Reachable.step_flag 0 0 Reachable.init)).1,
   (claim_C6 2 3 1 _ (Reachable.step_flag 0 0 Reachable.init)).2⟩

/-- C7: with mines placed, revealing an in-bounds, unflagged, unrevealed
mine cell sets `game_over`, marks that cell revealed, leaves every mine
cell on the board revealed, and does not change any non-mine cell's
`is_revealed`. -/
theorem claim_C7 (b : Board) (col row : Int)
    (shuffle : List (Int × Int) → List (Int × Int))
    (hlen : b.cells.length = b.cols * b.rows)
    (hplaced : b.mines_placed = true)
    (hin : b.is_inbounds col row = true)
    (hflag : (stateAt b.cells (toIdx b.cols col row)).is_flagged = false)
    (hrev : (stateAt b.cells (toIdx b.cols col row)).is_revealed = false)
    (hmine : (stateAt b.cells (toIdx b.cols col row)).is_mine = true) :
    (b.reveal col row shuffle).game_over = true
    ∧ (stateAt (b.reveal col row shuffle).cells (toIdx b.cols col row)).is_revealed = true
    ∧ ∀ i : Nat, i < b.cells.length →
        ((stateAt b.cells i).is_mine = true →
          (stateAt (b.reveal col row shuffle).cells i).is_revealed = true)
        ∧ ((stateAt b.cells i).is_mine = false →
          (stateAt (b.reveal col row shuffle).cells i).is_revealed
            = (stateAt b.cells i).is_revealed) := by
  have hidx : toIdx b.cols col row < b.cells.length := by
    rw [hlen]
    exact toIdx_lt hin
  rw [reveal_mine b col row shuffle hin hplaced hflag hrev hmine]
  refine ⟨rfl, ?_, ?_⟩
  · rw [reveal_all_mines_stateAt _ _
      (by rw [length_modifyState]; exact hidx :
        toIdx b.cols col row < (modifyState b.cells (toIdx b.cols col row)
          fun s => { s with is_revealed := true }).length)]
    have hMidx : stateAt (modifyState b.cells (toIdx b.cols col row)
        fun s => { s with is_revealed := true }) (toIdx b.cols col row)
        = { stateAt b.cells (toIdx b.cols col row) with is_revealed := true } :=
      stateAt_modifyState_self b.cells _ _ hidx
    rw [hMidx]
    simp [hmine]
  · intro i hi
    have hMm : (stateAt (modifyState b.cells (toIdx b.cols col row)
        fun s => { s with is_revealed := true }) i).is_mine
        = (stateAt b.cells i).is_mine :=
      field_modifyState (fun s => s.is_mine) (fun s => { s with is_revealed := true })
        (fun _ => rfl) b.cells (toIdx b.cols col row) i
    have hib : i < (modifyState b.cells (toIdx b.cols col row)
        fun s => { s with is_revealed := true }).length := by
      rw [length_modifyState]
      exact hi
    constructor
    · intro hm
      rw [reveal_all_mines_stateAt _ i hib]
      rw [if_pos (by rw [hMm]; exact hm :
        (stateAt (modifyState b.cells (toIdx b.cols col row)
          fun s => { s with is_revealed := true }) i).is_mine = true)]
    · intro hm
      rw [reveal_all_mines_stateAt _ i hib]
      rw [if_neg (by rw [hMm, hm]; decide :
        ¬((stateAt (modifyState b.cells (toIdx b.cols col row)
          fun s => { s with is_revealed := true }) i).is_mine = true))]
      have hne : i ≠ toIdx b.cols col row := by
        intro hc
        rw [hc, hmine] at hm
        exact nomatch hm
      rw [stateAt_modifyState_ne b.cells _ i _ hne]

theorem claim_C7_witness :
    wBoardC7.cells.length = wBoardC7.cols * wBoardC7.rows
    ∧ wBoardC7.mines_placed = true
    ∧ wBoardC7.is_inbounds 0 0 = true
    ∧ (stateAt wBoardC7.cells (toIdx wBoardC7.cols 0 0)).is_flagged = false
    ∧ (stateAt wBoardC7.cells (toIdx wBoardC7.cols 0 0)).is_revealed = false
    ∧ (stateAt wBoardC7.cells (toIdx wBoardC7.cols 0 0)).is_mine = true
    ∧ ((wBoardC7.reveal 0 0 id).game_over = true
      ∧ (stateAt (wBoardC7.reveal 0 0 id).cells (toIdx wBoardC7.cols 0 0)).is_revealed = true
      ∧ ∀ i : Nat, i < wBoardC7.cells.length →
          ((stateAt wBoardC7.cells i).is_mine = true →
            (stateAt (wBoardC7.reveal 0 0 id).cells i).is_revealed = true)
          ∧ ((stateAt wBoardC7.cells i).is_mine = false →
            (stateAt (wBoardC7.reveal 0 0 id).cells i).is_revealed
              = (stateAt wBoardC7.cells i).is_revealed)) :=
  ⟨by decide, rfl, by decide, by decide, by decide, by decide,
   claim_C7 wBoardC7 0 0 id (by decide) rfl (by decide) (by decide) (by decide) (by decide)⟩

/-- C8: when a reveal takes the flood-fill path (in-bounds, unflagged,
unrevealed, non-mine click on a board with mines placed and the game not
yet won), the resulting `win` is true exactly when the resulting
`revealed_count` equals `cols*rows - num_mines` with `game_over` false;
and whenever `win` is set, every non-mine cell of the result is
revealed. -/
theorem claim_C8 (b : Board) (col row : Int)
    (shuffle : List (Int × Int) → List (Int × Int))
    (hplaced : b.mines_placed = true)
    (hwin0 : b.win = false)
    (hin : b.is_inbounds col row = true)
    (hflag : (stateAt b.cells (toIdx b.cols col row)).is_flagged = false)
    (hrev : (stateAt b.cells (toIdx b.cols col row)).is_revealed = false)
    (hmine : (stateAt b.cells (toIdx b.cols col row)).is_mine = false) :
    ((b.reveal col row shuffle).win = true ↔
      (((b.reveal col row shuffle).revealed_count : Int)
          = (b.cols : Int) * (b.rows : Int) - (b.num_mines : Int)
        ∧ b.game_over = false))
    ∧ ((b.reveal col row shuffle).win = true →
        ∀ i : Nat, i < (b.reveal col row shuffle).cells.length →
          (stateAt (b.reveal col row shuffle).cells i).is_mine = false →
          (stateAt (b.reveal col row shuffle).cells i).is_revealed = true) := by
  rw [reveal_flood b col row shuffle hin hplaced hflag hrev hmine]
  set fr := flood b.cols b.rows (floodFuel b.cells) b.cells b.revealed_count
    [(col, row)] with hfr
  constructor
  · rw [(check_win_scalars { b with cells := fr.1, revealed_count := fr.2 }).2.2.2.2.1]
    constructor
    · intro hw
      rcases (check_win_win_iff _).mp hw with hc | hw0
      · exact hc
      · exact nomatch hwin0.symm.trans hw0
    · intro hc
      exact (check_win_win_iff _).mpr (Or.inl (by exact hc))
  · intro hw i hilen hm
    rcases (check_win_win_iff _).mp hw with hc | hw0
    case inr => exact nomatch hwin0.symm.trans hw0
    case inl =>
    rw [check_win_length] at hilen
    have hlen2 : i < fr.1.length := hilen
    have hcw : (Board.check_win { b with cells := fr.1, revealed_count := fr.2 }).cells
        = fr.1.map fun cl =>
            { cl with state :=
                if !cl.state.is_revealed && !cl.state.is_mine then
                  { cl.state with is_revealed := true }
                else cl.state } := by
      rw [check_win_pos { b with cells := fr.1, revealed_count := fr.2 } (by exact hc)]
      exact check_win_pos_cells { b with cells := fr.1, revealed_count := fr.2 }
    rw [hcw] at hm ⊢
    rw [stateAt_map (fun s => if !s.is_revealed && !s.is_mine then
      { s with is_revealed := true } else s) fr.1 i hlen2] at hm ⊢
    by_cases hr1 : (stateAt fr.1 i).is_revealed = true
    · rw [if_neg (by rw [hr1]; exact fun hcon => nomatch hcon)]
      exact hr1
    · rw [Bool.not_eq_true] at hr1
      by_cases hm1 : (stateAt fr.1 i).is_mine = true
      · rw [if_neg (by rw [hr1, hm1]; exact fun hcon => nomatch hcon)] at hm
        exact nomatch hm1.symm.trans hm
      · rw [Bool.not_eq_true] at hm1
        rw [if_pos (by rw [hr1, hm1]; rfl)]

theorem claim_C8_witness :
    wBoardC8b.mines_placed = true
    ∧ wBoardC8b.win = false
    ∧ wBoardC8b.is_inbounds 0 0 = true
    ∧ (stateAt wBoardC8b.cells (toIdx wBoardC8b.cols 0 0)).is_flagged = false
    ∧ (stateAt wBoardC8b.cells (toIdx wBoardC8b.cols 0 0)).is_revealed = false
    ∧ (stateAt wBoardC8b.cells (toIdx wBoardC8b.cols 0 0)).is_mine = false
    ∧ (((wBoardC8b.reveal 0 0 id).win = true ↔
        (((wBoardC8b.reveal 0 0 id).revealed_count : Int)
            = (wBoardC8b.cols : Int) * (wBoardC8b.rows : Int) - (wBoardC8b.num_mines : Int)
          ∧ wBoardC8b.game_over = false))
      ∧ ((wBoardC8b.reveal 0 0 id).win = true →
          ∀ i : Nat, i < (wBoardC8b.reveal 0 0 id).cells.length →
            (stateAt (wBoardC8b.reveal 0 0 id).cells i).is_mine = false →
            (stateAt (wBoardC8b.reveal 0 0 id).cells i).is_revealed = true)) :=
  ⟨rfl, rfl, by decide, by decide, by decide, by decide,
   claim_C8 wBoardC8b 0 0 id rfl rfl (by decide) (by decide) (by decide) (by decide)⟩

theorem modifyState_flagflip_invol (cells : List Cell) (i : Nat) :
    modifyState (modifyState cells i fun s => { s with is_flagged := !s.is_flagged }) i
      (fun s => { s with is_flagged := !s.is_flagged }) = cells := by
  induction cells generalizing i with
  | nil => rfl
  | cons x xs ih =>
    obtain ⟨c, r, m, rv, fl, ad⟩ := x
    cases i with
    | zero =>
      simp only [modifyState, Bool.not_not]
    | succ n =>
      simp only [modifyState]
      rw [ih n]

/-- C9: `toggle_flag` is a no-op out of bounds and on revealed cells;
otherwise it inverts exactly the targeted cell's flag — every other cell,
`revealed_count`, `game_over` and `win` are untouched — and applying it
twice to the same hidden in-bounds cell restores the original board. -/
theorem claim_C9 (b : Board) (col row : Int)
    (hlen : b.cells.length = b.cols * b.rows) :
    (b.is_inbounds col row = false → b.toggle_flag col row = b)
    ∧ ((stateAt b.cells (toIdx b.cols col row)).is_revealed = true →
        b.toggle_flag col row = b)
    ∧ (b.is_inbounds col row = true →
        (stateAt b.cells (toIdx b.cols col row)).is_revealed = false →
        ((stateAt (b.toggle_flag col row).cells (toIdx b.cols col row)).is_flagged
            = !(stateAt b.cells (toIdx b.cols col row)).is_flagged
          ∧ (stateAt (b.toggle_flag col row).cells (toIdx b.cols col row)).is_revealed
            = (stateAt b.cells (toIdx b.cols col row)).is_revealed
          ∧ (stateAt (b.toggle_flag col row).cells (toIdx b.cols col row)).is_mine
            = (stateAt b.cells (toIdx b.cols col row)).is_mine
          ∧ (∀ i : Nat, i ≠ toIdx b.cols col row →
              stateAt (b.toggle_flag col row).cells i = stateAt b.cells i)
          ∧ (b.toggle_flag col row).revealed_count = b.revealed_count
          ∧ (b.toggle_flag col row).game_over = b.game_over
          ∧ (b.toggle_flag col row).win = b.win
          ∧ (b.toggle_flag col row).toggle_flag col row = b)) := by
  refine ⟨fun hob => toggle_flag_oob b col row hob, ?_, ?_⟩
  · intro hrv
    by_cases hin : b.is_inbounds col row = true
    · exact toggle_flag_revealed b col row hin hrv
    · exact toggle_flag_oob b col row (Bool.of_not_eq_true hin)
  · intro hin hrv
    have hidx : toIdx b.cols col row < b.cells.length := by
      rw [hlen]
      exact toIdx_lt hin
    have hB := toggle_flag_hidden b col row hin hrv
    rw [hB]
    have hself := stateAt_modifyState_self b.cells (toIdx b.cols col row)
      (fun s => { s with is_flagged := !s.is_flagged }) hidx
    refine ⟨?_, ?_, ?_, ?_, rfl, rfl, rfl, ?_⟩
    · rw [hself]
    · rw [hself]
    · rw [hself]
    · intro i hne
      exact stateAt_modifyState_ne b.cells (toIdx b.cols col row) i
        (fun s => { s with is_flagged := !s.is_flagged }) hne
    · have hrev2 : (stateAt (modifyState b.cells (toIdx b.cols col row)
          fun s => { s with is_flagged := !s.is_flagged }) (toIdx b.cols col row)).is_revealed
          = false := by
        rw [hself]
        exact hrv
      rw [toggle_flag_hidden
        { b with cells := (modifyState b.cells (toIdx b.cols col row)
            (fun s => { s with is_flagged := !s.is_flagged })) } col row hin hrev2]
      show ({ b with cells := (modifyState (modifyState b.cells (toIdx b.cols col row)
          (fun s => { s with is_flagged := !s.is_flagged })) (toIdx b.cols col row)
          (fun s => { s with is_flagged := !s.is_flagged })) } : Board) = b
      rw [modifyState_flagflip_invol]

theorem claim_C9_witness :
    wBoardC7.cells.length = wBoardC7.cols * wBoardC7.rows
    ∧ wBoardC7.is_inbounds 1 0 = true
    ∧ (stateAt wBoardC7.cells (toIdx wBoardC7.cols 1 0)).is_revealed = false
    ∧ ((stateAt (wBoardC7.toggle_flag 1 0).cells (toIdx wBoardC7.cols 1 0)).is_flagged
        = !(stateAt wBoardC7.cells (toIdx wBoardC7.cols 1 0)).is_flagged
      ∧ (stateAt (wBoardC7.toggle_flag 1 0).cells (toIdx wBoardC7.cols 1 0)).is_revealed
        = (stateAt wBoardC7.cells (toIdx wBoardC7.cols 1 0)).is_revealed
      ∧ (stateAt (wBoardC7.toggle_flag 1 0).cells (toIdx wBoardC7.cols 1 0)).is_mine
        = (stateAt wBoardC7.cells (toIdx wBoardC7.cols 1 0)).is_mine
      ∧ (∀ i : Nat, i ≠ toIdx wBoardC7.cols 1 0 →
          stateAt (wBoardC7.toggle_flag 1 0).cells i = stateAt wBoardC7.cells i)
      ∧ (wBoardC7.toggle_flag 1 0).revealed_count = wBoardC7.revealed_count
      ∧ (wBoardC7.toggle_flag 1 0).game_over = wBoardC7.game_over
      ∧ (wBoardC7.toggle_flag 1 0).win = wBoardC7.win
      ∧ (wBoardC7.toggle_flag 1 0).toggle_flag 1 0 = wBoardC7) :=
  ⟨by decide, by decide, by decide,
   (claim_C9 wBoardC7 1 0 (by decide)).2.2 (by decide) (by decide)⟩

/-- C10: calling `reveal` on a flagged cell before any mines are placed
still triggers `place_mines` with that cell as the safe origin; the call
then stops at the flag guard, so the whole reveal equals the placement
step: `mines_placed` becomes true while the clicked cell stays unrevealed
and `revealed_count` stays 0. -/
theorem claim_C10 (b : Board) (col row : Int)
    (shuffle : List (Int × Int) → List (Int × Int))
    (hin : b.is_inbounds col row = true)
    (hup : b.mines_placed = false)
    (hflag : (stateAt b.cells (toIdx b.cols col row)).is_flagged = true)
    (hrev : (stateAt b.cells (toIdx b.cols col row)).is_revealed = false)
    (hrc : b.revealed_count = 0) :
    b.reveal col row shuffle = b.place_mines col row shuffle
    ∧ (b.reveal col row shuffle).mines_placed = true
    ∧ (stateAt (b.reveal col row shuffle).cells (toIdx b.cols col row)).is_revealed = false
    ∧ (b.reveal col row shuffle).revealed_count = 0 := by
  have heq : b.reveal col row shuffle = b.place_mines col row shuffle := by
    rw [reveal_unplaced b col row shuffle hin hup]
    apply reveal_guard (b.place_mines col row shuffle) col row shuffle hin rfl
    rw [place_mines_flag_eq, place_mines_rev_eq]
    show ((stateAt b.cells (toIdx b.cols col row)).is_flagged
      || (stateAt b.cells (toIdx b.cols col row)).is_revealed) = true
    rw [hflag]
    rfl
  refine ⟨heq, ?_, ?_, ?_⟩
  · rw [heq]
    rfl
  · rw [heq, place_mines_rev_eq]
    exact hrev
  · rw [heq]
    exact hrc

theorem claim_C10_witness :
    ((Board.init 3 3 0).toggle_flag 0 0).is_inbounds 0 0 = true
    ∧ ((Board.init 3 3 0).toggle_flag 0 0).mines_placed = false
    ∧ (stateAt ((Board.init 3 3 0).toggle_flag 0 0).cells
        (toIdx ((Board.init 3 3 0).toggle_flag 0 0).cols 0 0)).is_flagged = true
    ∧ (stateAt ((Board.init 3 3 0).toggle_flag 0 0).cells
        (toIdx ((Board.init 3 3 0).toggle_flag 0 0).cols 0 0)).is_revealed = false
    ∧ ((Board.init 3 3 0).toggle_flag 0 0).revealed_count = 0
    ∧ (((Board.init 3 3 0).toggle_flag 0 0).reveal 0 0 id
        = ((Board.init 3 3 0).toggle_flag 0 0).place_mines 0 0 id
      ∧ (((Board.init 3 3 0).toggle_flag 0 0).reveal 0 0 id).mines_placed = true
      ∧ (stateAt (((Board.init 3 3 0).toggle_flag 0 0).reveal 0 0 id).cells
          (toIdx ((Board.init 3 3 0).toggle_flag 0 0).cols 0 0)).is_revealed = false
      ∧ (((Board.init 3 3 0).toggle_flag 0 0).reveal 0 0 id).revealed_count = 0) :=
  ⟨by decide, by decide, by decide, by decide, by decide,
   claim_C10 ((Board.init 3 3 0).toggle_flag 0 0) 0 0 id
     (by decide) (by decide) (by decide) (by decide) (by decide)⟩
